import Mathlib

set_option maxRecDepth 8000

/-!
Verification of the Reveries memory/cognition engine against its
natural-language specification.

The TypeScript sources are shallowly embedded: JavaScript numbers are
modelled as exact rationals (`ℚ`), `Date` values as integer millisecond
timestamps (`Int`), and `Map<string, T>` as insertion-ordered association
lists with `Map` update semantics (updating an existing key keeps its
position, a fresh key is appended).  Platform functions that compute
irrational values (`Math.pow`, `Math.sqrt`) are passed as explicit
function parameters, exactly as the surrounding code treats them as
black boxes; every theorem states the properties of those parameters it
relies on, and witnesses instantiate them with concrete rational
functions that agree with the platform functions on every value actually
evaluated.
-/

namespace Reveries

/-! ## Association maps (JS `Map<string, ·>` model) -/

/-- Value lookup in an insertion-ordered association list, mirroring
`Map.get`. -/
def alistGet? {β : Type} (m : List (String × β)) (k : String) : Option β :=
  (m.find? (fun p => p.1 = k)).map (·.2)

/-- Update mirroring `Map.set`: an existing key keeps its position and
gets the new value, a fresh key is appended at the end. -/
def alistSet {β : Type} (m : List (String × β)) (k : String) (v : β) :
    List (String × β) :=
  if (m.find? (fun p => p.1 = k)).isSome then
    m.map (fun p => if p.1 = k then (k, v) else p)
  else m ++ [(k, v)]

/-- Keys of an association list, in insertion order. -/
def alistKeys {β : Type} (m : List (String × β)) : List String :=
  m.map (·.1)

/-! ## Episode graph data (src/memory/graph.ts) -/

/-- Directed weighted edge of the episode graph (`GraphLink`). -/
structure GraphLink where
  targetId : String
  strength : ℚ
  type : String
deriving DecidableEq, Repr

/-- Verbatim exemplar anchoring an abstraction (element of
`GraphNode.data.exemplars`). -/
structure Exemplar where
  quote : String
  context : String
  timestamp : Int
deriving DecidableEq, Repr

/-- Gap record carried in a node's data payload. -/
structure GapRecord where
  duration : ℚ
  significance : Option String
deriving DecidableEq, Repr

/-- The loose `data : Record<string, unknown>` payload of a graph node,
modelled with the fields the code actually reads and writes. -/
structure NodeData where
  summary : String
  topics : List String
  confidence : ℚ
  exemplars : List Exemplar
  patterns : List String
  before : List String
  after : List String
  gap : GapRecord
deriving DecidableEq, Repr

/-- Node of the episode graph (`GraphNode`).  `created` is optional
because the hydrator constructs nodes without it. -/
structure GraphNode where
  id : String
  type : String
  embedding : List ℚ
  salience : ℚ
  created : Option Int
  lastAccessed : Int
  accessCount : Nat
  data : NodeData
deriving DecidableEq, Repr

/-- The in-memory episode graph: `nodes` models the id-keyed node `Map`,
`links` the id-keyed `Map` of outgoing-link arrays. -/
structure MemoryGraph where
  nodes : List GraphNode
  links : List (String × List GraphLink)
deriving DecidableEq, Repr

/-- Options of `spreadActivation`. -/
structure SpreadActivationOptions where
  maxHops : Nat
  decayPerHop : ℚ
deriving Repr

/-- Options of `applyDecay`.  `minimumLinkStrength` is optional in the
source and defaults to `0.05`. -/
structure DecayOptions where
  halfLifeDays : ℚ
  minimumSalience : ℚ
  minimumLinkStrength : Option ℚ
deriving Repr

/-- Sum of coordinatewise products (`dotProduct`). -/
def dotProduct (a b : List ℚ) : ℚ :=
  ((a.zip b).map (fun p => p.1 * p.2)).sum

/-- Squared Euclidean magnitude; the source computes
`Math.sqrt` of this sum. -/
def magnitudeSq (v : List ℚ) : ℚ :=
  (v.map (fun x => x * x)).sum

/-- Cosine similarity (`cosineSimilarity`), parameterised by the model
`sqrtQ` of the platform `Math.sqrt`.  Zero magnitude on either side
yields 0, as in the source. -/
def cosineSimilarity (sqrtQ : ℚ → ℚ) (a b : List ℚ) : ℚ :=
  let magA := sqrtQ (magnitudeSq a)
  let magB := sqrtQ (magnitudeSq b)
  if magA = 0 ∨ magB = 0 then 0 else dotProduct a b / (magA * magB)

/-- Exact square root on perfect rational squares (numerator and
denominator square roots via `Int.sqrt`/`Nat.sqrt`); used to instantiate
`sqrtQ` on inputs whose magnitudes are perfect squares, where it agrees
exactly with the platform `Math.sqrt`. -/
def ratSqrt (q : ℚ) : ℚ :=
  (Int.sqrt q.num : ℚ) / (Nat.sqrt q.den : ℚ)

namespace MemoryGraph

/-- `addNode`: `nodes.set(node.id, node)`. -/
def addNode (g : MemoryGraph) (n : GraphNode) : MemoryGraph :=
  { g with nodes :=
      if (g.nodes.find? (fun m => m.id = n.id)).isSome then
        g.nodes.map (fun m => if m.id = n.id then n else m)
      else g.nodes ++ [n] }

/-- `getNode`: lookup by id (`null` becomes `none`). -/
def getNode (g : MemoryGraph) (id : String) : Option GraphNode :=
  g.nodes.find? (fun n => n.id = id)

/-- `getAllNodes`. -/
def getAllNodes (g : MemoryGraph) : List GraphNode :=
  g.nodes

/-- `getLinks`: outgoing links of a node, `[]` when absent. -/
def getLinks (g : MemoryGraph) (nodeId : String) : List GraphLink :=
  (alistGet? g.links nodeId).getD []

/-- `addLink`: append one link to the source's array. -/
def addLink (g : MemoryGraph) (fromId toId : String) (strength : ℚ)
    (ty : String) : MemoryGraph :=
  let updated := g.getLinks fromId ++ [⟨toId, strength, ty⟩]
  { g with links := alistSet g.links fromId updated }

/-- `nodeCount`. -/
def nodeCount (g : MemoryGraph) : Nat :=
  g.nodes.length

/-- `linkCount`. -/
def linkCount (g : MemoryGraph) : Nat :=
  (g.links.map (fun p => p.2.length)).sum

/-- `findNearestNodes`: score every node by cosine similarity to the
query, sort descending (JS `sort` is a stable sorted permutation,
modelled by insertion sort), take the first `limit`. -/
def findNearestNodes (sqrtQ : ℚ → ℚ) (g : MemoryGraph)
    (queryEmbedding : List ℚ) (limit : Nat) : List GraphNode :=
  let scored := g.nodes.map
    (fun n => (n, cosineSimilarity sqrtQ queryEmbedding n.embedding))
  let sorted := scored.insertionSort (fun x y => y.2 ≤ x.2)
  (sorted.take limit).map (·.1)

end MemoryGraph

/-! ## Spreading activation (src/memory/graph.ts, `spreadActivation`) -/

/-- Activation map: JS `Map<string, number>`. -/
abbrev ActMap := List (String × ℚ)

/-- Value of an activation map at a key, `?? 0`. -/
def actGet (m : ActMap) (k : String) : ℚ :=
  (alistGet? m k).getD 0

/-- Inner loop of one hop: for each outgoing link of a frontier node
with energy `energy`, add `energy · strength · decay` to the next
frontier's entry for the target. -/
def propagateLinks (decay energy : ℚ) (links : List GraphLink)
    (nf : ActMap) : ActMap :=
  links.foldl
    (fun nf link =>
      alistSet nf link.targetId
        (actGet nf link.targetId + energy * link.strength * decay))
    nf

/-- One hop: propagate every frontier entry's energy along its node's
outgoing links into a fresh next-frontier map. -/
def MemoryGraph.hopFrontier (g : MemoryGraph) (decay : ℚ)
    (frontier : ActMap) : ActMap :=
  frontier.foldl
    (fun nf p => propagateLinks decay p.2 (g.getLinks p.1) nf)
    ([] : ActMap)

/-- Merge of the next frontier into the global activation map by
additive accumulation. -/
def mergeFrontier (act nf : ActMap) : ActMap :=
  nf.foldl (fun act p => alistSet act p.1 (actGet act p.1 + p.2)) act

/-- Hop loop of `spreadActivation`. -/
def MemoryGraph.spreadLoop (g : MemoryGraph) (decay : ℚ) :
    Nat → ActMap → ActMap → ActMap
  | 0, _, act => act
  | h + 1, frontier, act =>
      let nf := g.hopFrontier decay frontier
      g.spreadLoop decay h nf (mergeFrontier act nf)

/-- `spreadActivation`: the activation map starts as a copy of the
seeds, which are also the hop-0 frontier. -/
def MemoryGraph.spreadActivation (g : MemoryGraph) (seeds : ActMap)
    (options : SpreadActivationOptions) : ActMap :=
  g.spreadLoop options.decayPerHop options.maxHops seeds seeds

/-! ## Association-map lemmas -/

theorem actGet_nil (k : String) : actGet [] k = 0 := rfl

theorem actGet_cons (k₀ : String) (v₀ : ℚ) (m : ActMap) (k : String) :
    actGet ((k₀, v₀) :: m) k = if k = k₀ then v₀ else actGet m k := by
  unfold actGet alistGet?
  by_cases h : k₀ = k
  · rw [List.find?_cons_of_pos _ (by simpa using h), if_pos h.symm]
    rfl
  · rw [List.find?_cons_of_neg _ (by simpa using h),
      if_neg (fun hc => h hc.symm)]

theorem actGet_eq_zero_of_not_mem {m : ActMap} {k : String}
    (h : k ∉ alistKeys m) : actGet m k = 0 := by
  induction m with
  | nil => rfl
  | cons p m ih =>
      obtain ⟨k₀, v₀⟩ := p
      simp only [alistKeys, List.map_cons, List.mem_cons, not_or] at h
      rw [actGet_cons, if_neg h.1]
      exact ih (by simpa [alistKeys] using h.2)

theorem actGet_nonneg {m : ActMap} (h : ∀ p ∈ m, 0 ≤ p.2) (k : String) :
    0 ≤ actGet m k := by
  induction m with
  | nil => exact le_refl 0
  | cons p m ih =>
      obtain ⟨k₀, v₀⟩ := p
      rw [actGet_cons]
      by_cases hk : k = k₀
      · rw [if_pos hk]; exact h _ (List.mem_cons_self _ _)
      · rw [if_neg hk]
        exact ih (fun q hq => h q (List.mem_cons_of_mem _ hq))

theorem alistSet_nil (k : String) (v : ℚ) :
    alistSet ([] : ActMap) k v = [(k, v)] := rfl

theorem alistSet_cons_ne {k₀ k : String} (hk : k₀ ≠ k) (v₀ v : ℚ)
    (m : ActMap) :
    alistSet ((k₀, v₀) :: m) k v = (k₀, v₀) :: alistSet m k v := by
  unfold alistSet
  rw [List.find?_cons_of_neg _ (by simpa using hk)]
  by_cases hfind : (m.find? (fun p => p.1 = k)).isSome
  · rw [if_pos hfind, if_pos hfind, List.map_cons, if_neg (by simpa using hk)]
  · rw [if_neg hfind, if_neg hfind, List.cons_append]

theorem alistSet_cons_eq (k : String) (v₀ v : ℚ) (m : ActMap) :
    alistSet ((k, v₀) :: m) k v =
      (k, v) :: m.map (fun p => if p.1 = k then (k, v) else p) := by
  unfold alistSet
  rw [if_pos (by rw [List.find?_cons_of_pos _ (by simp)]; rfl)]
  rw [List.map_cons, if_pos rfl]

theorem actGet_map_overwrite_ne {m : ActMap} {k k' : String} (hk : k' ≠ k)
    (v : ℚ) :
    actGet (m.map (fun p => if p.1 = k then (k, v) else p)) k' =
      actGet m k' := by
  induction m with
  | nil => rfl
  | cons p m ih =>
      obtain ⟨k₀, v₀⟩ := p
      by_cases h : k₀ = k
      · subst h
        rw [List.map_cons, if_pos rfl, actGet_cons, actGet_cons,
          if_neg hk, if_neg hk]
        exact ih
      · rw [List.map_cons, if_neg h, actGet_cons, actGet_cons]
        by_cases h' : k' = k₀
        · rw [if_pos h', if_pos h']
        · rw [if_neg h', if_neg h']
          exact ih

theorem actGet_alistSet (m : ActMap) (k : String) (v : ℚ) (k' : String) :
    actGet (alistSet m k v) k' = if k' = k then v else actGet m k' := by
  induction m with
  | nil =>
      rw [alistSet_nil, actGet_cons, actGet_nil]
  | cons p m ih =>
      obtain ⟨k₀, v₀⟩ := p
      by_cases h : k₀ = k
      · subst h
        rw [alistSet_cons_eq, actGet_cons]
        by_cases h' : k' = k₀
        · rw [if_pos h', if_pos h']
        · rw [if_neg h', if_neg h', actGet_cons, if_neg h',
            actGet_map_overwrite_ne h']
      · rw [alistSet_cons_ne h, actGet_cons, actGet_cons]
        by_cases h' : k' = k₀
        · have hne : ¬ k' = k := fun hc => h (h'.symm.trans hc)
          rw [if_pos h', if_neg hne, if_pos h']
        · rw [if_neg h', if_neg h', ih]

/-! ## Value-level characterisation of spreading activation -/

/-- Total strength of the links in `links` that point at `t`. -/
def linkWeight (links : List GraphLink) (t : String) : ℚ :=
  ((links.filter (fun l => l.targetId = t)).map (·.strength)).sum

/-- Entry-weighted sum over a map's entries. -/
def entrySum (m : ActMap) (φ : String → ℚ) : ℚ :=
  (m.map (fun p => p.2 * φ p.1)).sum

theorem linkWeight_cons (l : GraphLink) (ls : List GraphLink) (t : String) :
    linkWeight (l :: ls) t =
      (if l.targetId = t then l.strength else 0) + linkWeight ls t := by
  unfold linkWeight
  by_cases h : l.targetId = t <;> simp [List.filter_cons, h]

theorem propagateLinks_cons (d e : ℚ) (l : GraphLink) (ls : List GraphLink)
    (nf : ActMap) :
    propagateLinks d e (l :: ls) nf =
      propagateLinks d e ls
        (alistSet nf l.targetId (actGet nf l.targetId + e * l.strength * d)) :=
  rfl

theorem actGet_propagateLinks (d e : ℚ) (ls : List GraphLink) (nf : ActMap)
    (t : String) :
    actGet (propagateLinks d e ls nf) t =
      actGet nf t + e * linkWeight ls t * d := by
  induction ls generalizing nf with
  | nil => simp [propagateLinks, linkWeight]
  | cons l ls ih =>
      rw [propagateLinks_cons, ih, actGet_alistSet, linkWeight_cons]
      by_cases h : l.targetId = t
      · rw [if_pos (h.symm), if_pos h, h]
        ring
      · rw [if_neg (fun hc => h hc.symm), if_neg h]
        ring

theorem actGet_hopFold (g : MemoryGraph) (d : ℚ) (fr nf : ActMap)
    (t : String) :
    actGet
        (fr.foldl (fun nf p => propagateLinks d p.2 (g.getLinks p.1) nf) nf)
        t =
      actGet nf t + entrySum fr (fun n => linkWeight (g.getLinks n) t * d) := by
  induction fr generalizing nf with
  | nil => simp [entrySum]
  | cons p fr ih =>
      rw [List.foldl_cons, ih, actGet_propagateLinks]
      simp only [entrySum, List.map_cons, List.sum_cons]
      ring

theorem actGet_hopFrontier (g : MemoryGraph) (d : ℚ) (fr : ActMap)
    (t : String) :
    actGet (g.hopFrontier d fr) t =
      entrySum fr (fun n => linkWeight (g.getLinks n) t * d) := by
  have := actGet_hopFold g d fr [] t
  simpa [MemoryGraph.hopFrontier, actGet_nil] using this

/-! ## Key bookkeeping -/

theorem mem_keys_iff_findSome (m : ActMap) (k : String) :
    (m.find? (fun p => p.1 = k)).isSome ↔ k ∈ alistKeys m := by
  rw [List.find?_isSome]
  constructor
  · rintro ⟨p, hp, hpk⟩
    exact List.mem_map.mpr ⟨p, hp, by simpa using hpk⟩
  · rintro hk
    obtain ⟨p, hp, hpk⟩ := List.mem_map.mp hk
    exact ⟨p, hp, by simpa using hpk⟩

theorem alistKeys_overwrite (m : ActMap) (k : String) (v : ℚ) :
    alistKeys (m.map (fun p => if p.1 = k then (k, v) else p)) =
      alistKeys m := by
  induction m with
  | nil => rfl
  | cons p m ih =>
      have hhead : (if p.1 = k then (k, v) else p).1 = p.1 := by
        by_cases h : p.1 = k
        · rw [if_pos h]; exact h.symm
        · rw [if_neg h]
      simp only [alistKeys, List.map_cons] at *
      rw [hhead]
      exact congrArg _ ih

theorem alistKeys_alistSet_nodup {m : ActMap} {k : String} {v : ℚ}
    (hm : (alistKeys m).Nodup) : (alistKeys (alistSet m k v)).Nodup := by
  unfold alistSet
  by_cases hfind : (m.find? (fun p => p.1 = k)).isSome
  · rw [if_pos hfind, alistKeys_overwrite]
    exact hm
  · rw [if_neg hfind]
    have hk : k ∉ alistKeys m := fun hmem =>
      hfind ((mem_keys_iff_findSome m k).mpr hmem)
    have : alistKeys (m ++ [(k, v)]) = alistKeys m ++ [k] := by
      simp [alistKeys]
    rw [this, List.nodup_append]
    exact ⟨hm, List.nodup_singleton k,
      by simpa [List.disjoint_singleton] using hk⟩

theorem mem_alistSet {m : ActMap} {k : String} {v : ℚ} {q : String × ℚ}
    (hq : q ∈ alistSet m k v) : q = (k, v) ∨ q ∈ m := by
  unfold alistSet at hq
  by_cases hfind : (m.find? (fun p => p.1 = k)).isSome
  · rw [if_pos hfind] at hq
    obtain ⟨p, hp, hpq⟩ := List.mem_map.mp hq
    by_cases h : p.1 = k
    · rw [if_pos h] at hpq
      exact Or.inl hpq.symm
    · rw [if_neg h] at hpq
      exact Or.inr (hpq ▸ hp)
  · rw [if_neg hfind] at hq
    rcases List.mem_append.mp hq with h | h
    · exact Or.inr h
    · exact Or.inl (List.mem_singleton.mp h)

theorem propagateLinks_nodup {d e : ℚ} {ls : List GraphLink} {nf : ActMap}
    (hnf : (alistKeys nf).Nodup) :
    (alistKeys (propagateLinks d e ls nf)).Nodup := by
  induction ls generalizing nf with
  | nil => exact hnf
  | cons l ls ih =>
      rw [propagateLinks_cons]
      exact ih (alistKeys_alistSet_nodup hnf)

theorem hopFrontier_nodup (g : MemoryGraph) (d : ℚ) (fr : ActMap) :
    (alistKeys (g.hopFrontier d fr)).Nodup := by
  unfold MemoryGraph.hopFrontier
  suffices h : ∀ nf : ActMap, (alistKeys nf).Nodup →
      (alistKeys
        (fr.foldl (fun nf p => propagateLinks d p.2 (g.getLinks p.1) nf) nf)).Nodup by
    exact h [] (by simp [alistKeys])
  induction fr with
  | nil => exact fun nf hnf => hnf
  | cons p fr ih =>
      intro nf hnf
      rw [List.foldl_cons]
      exact ih _ (propagateLinks_nodup hnf)

/-! ## Merging and additivity -/

theorem mergeFrontier_cons (act : ActMap) (k₀ : String) (v₀ : ℚ)
    (nf : ActMap) :
    mergeFrontier act ((k₀, v₀) :: nf) =
      mergeFrontier (alistSet act k₀ (actGet act k₀ + v₀)) nf :=
  rfl

theorem actGet_mergeFrontier {nf : ActMap} (act : ActMap)
    (hnf : (alistKeys nf).Nodup) (t : String) :
    actGet (mergeFrontier act nf) t = actGet act t + actGet nf t := by
  induction nf generalizing act with
  | nil => simp [mergeFrontier, actGet_nil]
  | cons p nf ih =>
      obtain ⟨k₀, v₀⟩ := p
      have hcons : (k₀ :: alistKeys nf).Nodup := hnf
      have hk₀ : k₀ ∉ alistKeys nf := (List.nodup_cons.mp hcons).1
      have htail : (alistKeys nf).Nodup := (List.nodup_cons.mp hcons).2
      rw [mergeFrontier_cons, ih _ htail, actGet_alistSet, actGet_cons]
      by_cases h : t = k₀
      · rw [if_pos h, if_pos h, h, actGet_eq_zero_of_not_mem hk₀]
        ring
      · rw [if_neg h, if_neg h]

theorem entrySum_eq_sum (m : ActMap) (hm : (alistKeys m).Nodup)
    (S : Finset String) (hS : ∀ p ∈ m, p.1 ∈ S) (φ : String → ℚ) :
    entrySum m φ = ∑ k ∈ S, actGet m k * φ k := by
  induction m with
  | nil => simp [entrySum, actGet_nil]
  | cons p m ih =>
      obtain ⟨k₀, v₀⟩ := p
      have hk₀S : k₀ ∈ S := hS _ (List.mem_cons_self _ _)
      have hcons : (k₀ :: alistKeys m).Nodup := hm
      have hk₀m : k₀ ∉ alistKeys m := (List.nodup_cons.mp hcons).1
      have htail := ih (List.nodup_cons.mp hcons).2
        (fun q hq => hS q (List.mem_cons_of_mem _ hq))
      have hsum : ∀ k ∈ S,
          actGet ((k₀, v₀) :: m) k * φ k =
            actGet m k * φ k + (if k = k₀ then v₀ * φ k₀ else 0) := by
        intro k _
        rw [actGet_cons]
        by_cases h : k = k₀
        · rw [if_pos h, if_pos h, h, actGet_eq_zero_of_not_mem hk₀m]
          ring
        · rw [if_neg h, if_neg h]
          ring
      calc entrySum ((k₀, v₀) :: m) φ
          = v₀ * φ k₀ + entrySum m φ := by simp [entrySum]
        _ = v₀ * φ k₀ + ∑ k ∈ S, actGet m k * φ k := by rw [htail]
        _ = ∑ k ∈ S, actGet ((k₀, v₀) :: m) k * φ k := by
            rw [Finset.sum_congr rfl hsum, Finset.sum_add_distrib,
              Finset.sum_ite_eq' S k₀ (fun _ => v₀ * φ k₀), if_pos hk₀S]
            ring

theorem mem_keys_of_mem {m : ActMap} {p : String × ℚ} (hp : p ∈ m) :
    p.1 ∈ alistKeys m :=
  List.mem_map.mpr ⟨p, hp, rfl⟩

theorem hopFrontier_additive (g : MemoryGraph) (d : ℚ)
    {fr1 fr2 fr12 : ActMap}
    (h1 : (alistKeys fr1).Nodup) (h2 : (alistKeys fr2).Nodup)
    (h12 : (alistKeys fr12).Nodup)
    (hadd : ∀ t, actGet fr12 t = actGet fr1 t + actGet fr2 t) (t : String) :
    actGet (g.hopFrontier d fr12) t =
      actGet (g.hopFrontier d fr1) t + actGet (g.hopFrontier d fr2) t := by
  classical
  set S : Finset String :=
    (alistKeys fr1 ++ alistKeys fr2 ++ alistKeys fr12).toFinset with hSdef
  have hS1 : ∀ p ∈ fr1, p.1 ∈ S := fun p hp => by
    simp [hSdef, List.mem_toFinset, mem_keys_of_mem hp]
  have hS2 : ∀ p ∈ fr2, p.1 ∈ S := fun p hp => by
    simp [hSdef, List.mem_toFinset, mem_keys_of_mem hp]
  have hS12 : ∀ p ∈ fr12, p.1 ∈ S := fun p hp => by
    simp [hSdef, List.mem_toFinset, mem_keys_of_mem hp]
  rw [actGet_hopFrontier, actGet_hopFrontier, actGet_hopFrontier,
    entrySum_eq_sum fr1 h1 S hS1, entrySum_eq_sum fr2 h2 S hS2,
    entrySum_eq_sum fr12 h12 S hS12, ← Finset.sum_add_distrib]
  refine Finset.sum_congr rfl (fun k _ => ?_)
  rw [hadd k]
  ring

theorem spreadLoop_additive (g : MemoryGraph) (d : ℚ) :
    ∀ (h : Nat) (fr1 fr2 fr12 a1 a2 a12 : ActMap),
      (alistKeys fr1).Nodup → (alistKeys fr2).Nodup →
      (alistKeys fr12).Nodup →
      (∀ t, actGet fr12 t = actGet fr1 t + actGet fr2 t) →
      (∀ t, actGet a12 t = actGet a1 t + actGet a2 t) →
      ∀ t, actGet (g.spreadLoop d h fr12 a12) t =
        actGet (g.spreadLoop d h fr1 a1) t +
          actGet (g.spreadLoop d h fr2 a2) t := by
  intro h
  induction h with
  | zero => intro _ _ _ _ _ _ _ _ _ _ hact t; exact hact t
  | succ h ih =>
      intro fr1 fr2 fr12 a1 a2 a12 h1 h2 h12 hfr hact t
      rw [MemoryGraph.spreadLoop, MemoryGraph.spreadLoop, MemoryGraph.spreadLoop]
      exact ih _ _ _ _ _ _ (hopFrontier_nodup g d fr1) (hopFrontier_nodup g d fr2)
        (hopFrontier_nodup g d fr12)
        (hopFrontier_additive g d h1 h2 h12 hfr)
        (fun t => by
          rw [actGet_mergeFrontier _ (hopFrontier_nodup g d fr12) t,
            actGet_mergeFrontier _ (hopFrontier_nodup g d fr1) t,
            actGet_mergeFrontier _ (hopFrontier_nodup g d fr2) t,
            hact t, hopFrontier_additive g d h1 h2 h12 hfr t]
          ring)
        t

/-! ## Nonnegativity of propagated energy -/

theorem getLinks_nonneg {g : MemoryGraph} {n : String}
    (hstr : ∀ pr ∈ g.links, ∀ l ∈ pr.2, 0 ≤ l.strength) :
    ∀ l ∈ g.getLinks n, 0 ≤ l.strength := by
  unfold MemoryGraph.getLinks alistGet?
  cases hfind : g.links.find? (fun p => p.1 = n) with
  | none => simp
  | some pr =>
      have hmem := List.mem_of_find?_eq_some hfind
      simpa using hstr pr hmem

theorem propagateLinks_entries_nonneg {d e : ℚ} {ls : List GraphLink}
    {nf : ActMap} (hnf : ∀ p ∈ nf, 0 ≤ p.2) (he : 0 ≤ e) (hd : 0 ≤ d)
    (hls : ∀ l ∈ ls, 0 ≤ l.strength) :
    ∀ p ∈ propagateLinks d e ls nf, 0 ≤ p.2 := by
  induction ls generalizing nf with
  | nil => exact hnf
  | cons l ls ih =>
      rw [propagateLinks_cons]
      refine ih (fun q hq => ?_) (fun x hx => hls x (List.mem_cons_of_mem _ hx))
      rcases mem_alistSet hq with h | h
      · rw [h]
        have h1 : 0 ≤ actGet nf l.targetId := actGet_nonneg hnf _
        have h2 : 0 ≤ e * l.strength * d :=
          mul_nonneg (mul_nonneg he (hls l (List.mem_cons_self _ _))) hd
        exact add_nonneg h1 h2
      · exact hnf q h

theorem hopFrontier_entries_nonneg {g : MemoryGraph} {d : ℚ} {fr : ActMap}
    (hfr : ∀ p ∈ fr, 0 ≤ p.2) (hd : 0 ≤ d)
    (hstr : ∀ pr ∈ g.links, ∀ l ∈ pr.2, 0 ≤ l.strength) :
    ∀ p ∈ g.hopFrontier d fr, 0 ≤ p.2 := by
  unfold MemoryGraph.hopFrontier
  suffices h : ∀ nf : ActMap, (∀ p ∈ nf, 0 ≤ p.2) →
      ∀ p ∈ fr.foldl (fun nf p => propagateLinks d p.2 (g.getLinks p.1) nf) nf,
        0 ≤ p.2 by
    exact h [] (by simp)
  induction fr with
  | nil => exact fun nf hnf => hnf
  | cons q fr ih =>
      intro nf hnf
      rw [List.foldl_cons]
      exact ih (fun x hx => hfr x (List.mem_cons_of_mem _ hx)) _
        (propagateLinks_entries_nonneg hnf (hfr q (List.mem_cons_self _ _)) hd
          (getLinks_nonneg hstr))

theorem mergeFrontier_entries_nonneg {act nf : ActMap}
    (hact : ∀ p ∈ act, 0 ≤ p.2) (hnf : ∀ p ∈ nf, 0 ≤ p.2) :
    ∀ p ∈ mergeFrontier act nf, 0 ≤ p.2 := by
  induction nf generalizing act with
  | nil => exact hact
  | cons q nf ih =>
      obtain ⟨k₀, v₀⟩ := q
      rw [mergeFrontier_cons]
      refine ih (fun p hp => ?_) (fun x hx => hnf x (List.mem_cons_of_mem _ hx))
      rcases mem_alistSet hp with h | h
      · rw [h]
        exact add_nonneg (actGet_nonneg hact _) (hnf _ (List.mem_cons_self _ _))
      · exact hact p h

theorem spreadLoop_entries_nonneg {g : MemoryGraph} {d : ℚ} (hd : 0 ≤ d)
    (hstr : ∀ pr ∈ g.links, ∀ l ∈ pr.2, 0 ≤ l.strength) :
    ∀ (h : Nat) (fr act : ActMap), (∀ p ∈ fr, 0 ≤ p.2) →
      (∀ p ∈ act, 0 ≤ p.2) → ∀ p ∈ g.spreadLoop d h fr act, 0 ≤ p.2 := by
  intro h
  induction h with
  | zero => intro fr act _ hact; exact hact
  | succ h ih =>
      intro fr act hfr hact
      rw [MemoryGraph.spreadLoop]
      exact ih _ _ (hopFrontier_entries_nonneg hfr hd hstr)
        (mergeFrontier_entries_nonneg hact
          (hopFrontier_entries_nonneg hfr hd hstr))

theorem actGet_append_disjoint {s1 s2 : ActMap}
    (hdisj : ∀ k ∈ alistKeys s1, k ∉ alistKeys s2) (t : String) :
    actGet (s1 ++ s2) t = actGet s1 t + actGet s2 t := by
  induction s1 with
  | nil => simp [actGet_nil]
  | cons p s1 ih =>
      obtain ⟨k₀, v₀⟩ := p
      rw [List.cons_append, actGet_cons, actGet_cons]
      by_cases h : t = k₀
      · have hk₀ : k₀ ∉ alistKeys s2 :=
          hdisj k₀ (List.mem_cons_self _ _)
        rw [if_pos h, if_pos h, h, actGet_eq_zero_of_not_mem hk₀]
        ring
      · rw [if_neg h, if_neg h]
        exact ih (fun k hk => hdisj k (List.mem_cons_of_mem _ hk))

theorem alistKeys_append_nodup {s1 s2 : ActMap}
    (h1 : (alistKeys s1).Nodup) (h2 : (alistKeys s2).Nodup)
    (hdisj : ∀ k ∈ alistKeys s1, k ∉ alistKeys s2) :
    (alistKeys (s1 ++ s2)).Nodup := by
  have : alistKeys (s1 ++ s2) = alistKeys s1 ++ alistKeys s2 := by
    simp [alistKeys]
  rw [this, List.nodup_append]
  exact ⟨h1, h2, hdisj⟩

/-- C1.  Spreading activation is additive across paths: supplying two
seed maps with disjoint supports together yields, at every node, the sum
of the activations each seed map yields alone; in particular, when both
seed maps carry nonnegative energies into a graph whose link strengths
are nonnegative and both link into a common target `T` with positive
strength, `T`'s activation from the combined seeds is at least the
activation it receives from either seed map alone. -/
theorem spreadActivation_additive (g : MemoryGraph)
    (opts : SpreadActivationOptions) (s1 s2 : ActMap) (T n1 n2 : String)
    (st1 st2 : ℚ) (ty1 ty2 : String)
    (hn1 : (alistKeys s1).Nodup) (hn2 : (alistKeys s2).Nodup)
    (hdisj : ∀ k ∈ alistKeys s1, k ∉ alistKeys s2)
    (hpos1 : ∀ p ∈ s1, 0 ≤ p.2) (hpos2 : ∀ p ∈ s2, 0 ≤ p.2)
    (hstr : ∀ pr ∈ g.links, ∀ l ∈ pr.2, 0 ≤ l.strength)
    (hdecay : 0 ≤ opts.decayPerHop)
    (hl1 : GraphLink.mk T st1 ty1 ∈ g.getLinks n1) (hst1 : 0 < st1)
    (hl2 : GraphLink.mk T st2 ty2 ∈ g.getLinks n2) (hst2 : 0 < st2) :
    actGet (g.spreadActivation (s1 ++ s2) opts) T =
        actGet (g.spreadActivation s1 opts) T +
          actGet (g.spreadActivation s2 opts) T ∧
      actGet (g.spreadActivation s1 opts) T ≤
        actGet (g.spreadActivation (s1 ++ s2) opts) T ∧
      actGet (g.spreadActivation s2 opts) T ≤
        actGet (g.spreadActivation (s1 ++ s2) opts) T := by
  have h12 : (alistKeys (s1 ++ s2)).Nodup :=
    alistKeys_append_nodup hn1 hn2 hdisj
  have hadd : ∀ t, actGet (g.spreadActivation (s1 ++ s2) opts) t =
      actGet (g.spreadActivation s1 opts) t +
        actGet (g.spreadActivation s2 opts) t := by
    intro t
    exact spreadLoop_additive g opts.decayPerHop opts.maxHops s1 s2 (s1 ++ s2)
      s1 s2 (s1 ++ s2) hn1 hn2 h12 (actGet_append_disjoint hdisj)
      (actGet_append_disjoint hdisj) t
  have hnn1 : 0 ≤ actGet (g.spreadActivation s1 opts) T :=
    actGet_nonneg
      (spreadLoop_entries_nonneg hdecay hstr opts.maxHops s1 s1 hpos1 hpos1) T
  have hnn2 : 0 ≤ actGet (g.spreadActivation s2 opts) T :=
    actGet_nonneg
      (spreadLoop_entries_nonneg hdecay hstr opts.maxHops s2 s2 hpos2 hpos2) T
  refine ⟨hadd T, ?_, ?_⟩
  · rw [hadd T]; linarith
  · rw [hadd T]; linarith

/-- Graph used by the C1 witness: two sources each linking into `T`. -/
def witnessGraphC1 : MemoryGraph :=
  MemoryGraph.mk []
    [("A", [⟨"T", 1, "thematic"⟩]), ("B", [⟨"T", 1, "thematic"⟩])]

/-- Witness for C1 at a concrete two-seed, one-target graph. -/
theorem spreadActivation_additive_witness :
    (∀ k ∈ alistKeys [("A", (1 : ℚ))], k ∉ alistKeys [("B", (2 : ℚ))]) ∧
      actGet
          (witnessGraphC1.spreadActivation
            ([("A", (1 : ℚ))] ++ [("B", (2 : ℚ))]) ⟨1, 1⟩) "T" =
        actGet (witnessGraphC1.spreadActivation [("A", (1 : ℚ))] ⟨1, 1⟩) "T" +
          actGet (witnessGraphC1.spreadActivation [("B", (2 : ℚ))] ⟨1, 1⟩) "T" := by
  refine ⟨by decide, ?_⟩
  exact (spreadActivation_additive witnessGraphC1
    ⟨1, 1⟩ [("A", (1 : ℚ))] [("B", (2 : ℚ))] "T" "A" "B"
    1 1 "thematic" "thematic"
    (by decide) (by decide) (by decide) (by decide) (by decide)
    (by decide) (by norm_num) (by decide) (by norm_num)
    (by decide) (by norm_num)).1

/-! ## Reinforcement and decay (src/memory/graph.ts) -/

/-- `reinforceNode`: increment the access count and set last-accessed to
now; a missing id is a no-op. -/
def MemoryGraph.reinforceNode (g : MemoryGraph) (now : Int) (id : String) :
    MemoryGraph :=
  { g with nodes := g.nodes.map (fun n =>
      if n.id = id then
        { n with accessCount := n.accessCount + 1, lastAccessed := now }
      else n) }

/-- Milliseconds per day, as in `applyDecay`. -/
def msPerDay : ℚ := 24 * 60 * 60 * 1000

/-- Exponent fed to `Math.pow(0.5, ·)` in `applyDecay`:
days since last access divided by the half-life. -/
def decayExponent (opts : DecayOptions) (now lastAccessed : Int) : ℚ :=
  ((now - lastAccessed : Int) : ℚ) / msPerDay / opts.halfLifeDays

/-- Salience decay of one node:
`max(salience · 0.5^(d/halfLife), minimumSalience)`.  `halfPow` models
the platform `Math.pow(0.5, ·)`. -/
def decayNode (halfPow : ℚ → ℚ) (opts : DecayOptions) (now : Int)
    (n : GraphNode) : GraphNode :=
  let s := max (n.salience * halfPow (decayExponent opts now n.lastAccessed))
    opts.minimumSalience
  { n with salience := s }

/-- Strength decay of one link given the source node's decay factor,
floored at the configured minimum. -/
def decayLink (factor minL : ℚ) (l : GraphLink) : GraphLink :=
  { l with strength := max (l.strength * factor) minL }

/-- Decay of one source's link array: the factor comes from the source
node's last-accessed time; a source that is not a node is skipped. -/
def decayLinkGroup (halfPow : ℚ → ℚ) (opts : DecayOptions) (now : Int)
    (g : MemoryGraph) (pr : String × List GraphLink) :
    String × List GraphLink :=
  match g.nodes.find? (fun n => n.id = pr.1) with
  | none => pr
  | some src =>
      (pr.1,
        pr.2.map
          (decayLink (halfPow (decayExponent opts now src.lastAccessed))
            (opts.minimumLinkStrength.getD (5 / 100))))

/-- `applyDecay`: exponential decay of every node salience and every
link strength, floored at the configured minima.  The decay factor is
`halfPow` (the platform `Math.pow(0.5, ·)`) of days-since-access over
the half-life; link strengths use the source node's last-accessed
time. -/
def MemoryGraph.applyDecay (g : MemoryGraph) (halfPow : ℚ → ℚ)
    (opts : DecayOptions) (now : Int) : MemoryGraph :=
  { nodes := g.nodes.map (decayNode halfPow opts now),
    links := g.links.map (decayLinkGroup halfPow opts now g) }

/-- C2 (amended).  Monotonicity is conditional: when the minimum
salience is nonnegative, every node's decay factor lies in `[0, 1]`
(true of `0.5^(d/halfLife)` whenever last-accessed is not in the future)
and every pre-decay salience is at least `minimumSalience`, `applyDecay`
never increases a node salience, and symmetrically for link strengths of
present sources.  The floors, by contrast, hold UNCONDITIONALLY: after
`applyDecay` every node salience is at least `minimumSalience`, and
every link strength in a group whose source id is present in the node
map is at least the configured minimum link strength. -/
theorem applyDecay_monotone_and_floored (g : MemoryGraph)
    (halfPow : ℚ → ℚ) (opts : DecayOptions) (now : Int) :
    (0 ≤ opts.minimumSalience →
      (∀ n ∈ g.nodes,
        0 ≤ halfPow (decayExponent opts now n.lastAccessed) ∧
          halfPow (decayExponent opts now n.lastAccessed) ≤ 1) →
      (∀ n ∈ g.nodes, opts.minimumSalience ≤ n.salience) →
      ∀ n ∈ g.nodes,
        (decayNode halfPow opts now n).salience ≤ n.salience) ∧
      (0 ≤ opts.minimumLinkStrength.getD (5 / 100) →
        (∀ n ∈ g.nodes,
          0 ≤ halfPow (decayExponent opts now n.lastAccessed) ∧
            halfPow (decayExponent opts now n.lastAccessed) ≤ 1) →
        (∀ pr ∈ g.links, ∀ l ∈ pr.2,
          opts.minimumLinkStrength.getD (5 / 100) ≤ l.strength) →
        ∀ pr ∈ g.links, ∀ l ∈ pr.2, ∀ src,
          g.nodes.find? (fun n => n.id = pr.1) = some src →
            (decayLink (halfPow (decayExponent opts now src.lastAccessed))
                (opts.minimumLinkStrength.getD (5 / 100)) l).strength ≤
              l.strength) ∧
      (∀ n' ∈ (g.applyDecay halfPow opts now).nodes,
        opts.minimumSalience ≤ n'.salience) ∧
      (∀ pr ∈ (g.applyDecay halfPow opts now).links,
        (g.nodes.find? (fun n => n.id = pr.1)).isSome = true →
        ∀ l ∈ pr.2,
          opts.minimumLinkStrength.getD (5 / 100) ≤ l.strength) := by
  refine ⟨?_, ?_, ?_, ?_⟩
  · intro hminS hpow hsal n hn
    have h0 : 0 ≤ n.salience := le_trans hminS (hsal n hn)
    have hp := hpow n hn
    have hmul : n.salience * halfPow (decayExponent opts now n.lastAccessed) ≤
        n.salience := mul_le_of_le_one_right h0 hp.2
    show max (n.salience * halfPow (decayExponent opts now n.lastAccessed))
      opts.minimumSalience ≤ n.salience
    exact max_le hmul (hsal n hn)
  · intro hminL hpow hstr pr hpr l hl src hfind
    have hsrcmem : src ∈ g.nodes := List.mem_of_find?_eq_some hfind
    have hp := hpow src hsrcmem
    have h0 : 0 ≤ l.strength := le_trans hminL (hstr pr hpr l hl)
    have hmul :
        l.strength * halfPow (decayExponent opts now src.lastAccessed) ≤
          l.strength := mul_le_of_le_one_right h0 hp.2
    show max (l.strength * halfPow (decayExponent opts now src.lastAccessed))
      (opts.minimumLinkStrength.getD (5 / 100)) ≤ l.strength
    exact max_le hmul (hstr pr hpr l hl)
  · intro n' hn'
    obtain ⟨n, _, hmap⟩ := List.mem_map.mp hn'
    rw [← hmap]
    show opts.minimumSalience ≤
      max (n.salience * halfPow (decayExponent opts now n.lastAccessed))
        opts.minimumSalience
    exact le_max_right _ _
  · intro pr' hpr' hsome l' hl'
    obtain ⟨pr, hpr, hmap⟩ := List.mem_map.mp hpr'
    unfold decayLinkGroup at hmap
    cases hfind : g.nodes.find? (fun n => n.id = pr.1) with
    | none =>
        rw [hfind] at hmap
        rw [← hmap] at hsome
        rw [hfind] at hsome
        simp at hsome
    | some src =>
        rw [hfind] at hmap
        rw [← hmap] at hl'
        obtain ⟨l, _, hlmap⟩ := List.mem_map.mp hl'
        rw [← hlmap]
        show opts.minimumLinkStrength.getD (5 / 100) ≤
          max (l.strength * halfPow (decayExponent opts now src.lastAccessed))
            (opts.minimumLinkStrength.getD (5 / 100))
        exact le_max_right _ _

/-- Model of the platform `Math.pow(0.5, ·)` used by the C2
counterexample.  It agrees exactly with the platform function at every
exponent the counterexample evaluates: `0.5^0 = 1` and `0.5^(-1) = 2`
(both exact in IEEE doubles as well), and it shares the platform
function's order properties (positive, at most 1 on nonnegative
exponents, greater than 1 on negative exponents). -/
def halfPowModel (x : ℚ) : ℚ :=
  if x < 0 then 1 - x else 1 / (1 + x)

/-- Node-data payload for concrete test graphs. -/
def emptyNodeData : NodeData :=
  { summary := "", topics := [], confidence := 0, exemplars := [],
    patterns := [], before := [], after := [], gap := ⟨0, none⟩ }

/-- Counterexample node: salience 0, below the configured minimum 1/10,
last accessed exactly at the decay instant. -/
def ceNodeBelowMin : GraphNode :=
  { id := "n1", type := "episode", embedding := [], salience := 0,
    created := none, lastAccessed := 0, accessCount := 0,
    data := emptyNodeData }

/-- Counterexample node: last accessed one day in the future of the
decay instant (a clock jump). -/
def ceNodeFuture : GraphNode :=
  { id := "n2", type := "episode", embedding := [], salience := 2 / 5,
    created := none, lastAccessed := 86400000, accessCount := 0,
    data := emptyNodeData }

/-- Counterexample graph for C2. -/
def ceGraphC2 : MemoryGraph :=
  ⟨[ceNodeBelowMin, ceNodeFuture], []⟩

/-- Counterexample to C2 as stated: `applyDecay` at time 0 with
half-life 1 day and minimum salience 1/10 RAISES the salience of a node
whose pre-decay salience (0) is below the minimum, and RAISES the
salience of a node whose last-accessed timestamp lies one day in the
future (decay factor `0.5^(-1) = 2`); so `apply_decay` does increase
node saliences for some stored states. -/
theorem applyDecay_increases_salience_counterexample :
    ((ceGraphC2.applyDecay halfPowModel ⟨1, 1 / 10, none⟩ 0).getNode
          "n1").map (·.salience) = some (1 / 10) ∧
      (0 : ℚ) < 1 / 10 ∧
      ((ceGraphC2.applyDecay halfPowModel ⟨1, 1 / 10, none⟩ 0).getNode
          "n2").map (·.salience) = some (4 / 5) ∧
      (2 : ℚ) / 5 < 4 / 5 := by
  refine ⟨?_, by norm_num, ?_, by norm_num⟩
  · show (((ceGraphC2.applyDecay halfPowModel ⟨1, 1 / 10, none⟩ 0).getNode
        "n1").map (·.salience)) = some (1 / 10)
    simp only [MemoryGraph.applyDecay, MemoryGraph.getNode, ceGraphC2,
      ceNodeBelowMin, ceNodeFuture, decayNode, decayExponent, msPerDay,
      halfPowModel, List.map_cons, List.map_nil, List.find?]
    norm_num
  · simp only [MemoryGraph.applyDecay, MemoryGraph.getNode, ceGraphC2,
      ceNodeBelowMin, ceNodeFuture, decayNode, decayExponent, msPerDay,
      halfPowModel, List.map_cons, List.map_nil, List.find?]
    norm_num
    exact ⟨_, rfl, rfl⟩

/-- Witness graph for the amended C2 theorem. -/
def witnessGraphC2 : MemoryGraph :=
  ⟨[{ id := "w", type := "episode", embedding := [], salience := 1,
      created := none, lastAccessed := 0, accessCount := 0,
      data := emptyNodeData }],
    [("w", [⟨"w", 1, "thematic"⟩])]⟩

/-- Witness for the amended C2 theorem at a concrete graph, with every
antecedent discharged. -/
theorem applyDecay_monotone_and_floored_witness :
    (∀ n ∈ witnessGraphC2.nodes,
      (decayNode (fun _ => 1) ⟨1, 0, some 0⟩ 0 n).salience ≤
        n.salience) ∧
    (∀ pr ∈ witnessGraphC2.links, ∀ l ∈ pr.2, ∀ src,
      witnessGraphC2.nodes.find? (fun n => n.id = pr.1) = some src →
        (decayLink
            ((fun _ => (1 : ℚ))
              (decayExponent ⟨1, 0, some 0⟩ 0 src.lastAccessed))
            ((some (0 : ℚ)).getD (5 / 100)) l).strength ≤ l.strength) ∧
    (∀ n' ∈ (witnessGraphC2.applyDecay (fun _ => 1)
        ⟨1, 0, some 0⟩ 0).nodes, (0 : ℚ) ≤ n'.salience) ∧
    (∀ pr ∈ (witnessGraphC2.applyDecay (fun _ => 1)
        ⟨1, 0, some 0⟩ 0).links,
      (witnessGraphC2.nodes.find? (fun n => n.id = pr.1)).isSome = true →
      ∀ l ∈ pr.2, (0 : ℚ) ≤ l.strength) := by
  have h := applyDecay_monotone_and_floored witnessGraphC2 (fun _ => 1)
    ⟨1, 0, some 0⟩ 0
  exact ⟨h.1 (by norm_num) (fun n _ => by norm_num) (by decide),
    h.2.1 (by norm_num) (fun n _ => by norm_num) (by decide),
    h.2.2.1, h.2.2.2⟩

/-! ## Experience encoder (src/memory/encoder.ts) -/

/-- Count of the maximal whitespace runs in a character list; the
accumulator records whether the previous character was whitespace. -/
def countWsRuns : List Char → Bool → Nat
  | [], _ => 0
  | c :: rest, prevWs =>
      (if c.isWhitespace && !prevWs then 1 else 0) +
        countWsRuns rest c.isWhitespace

/-- `content.split(/\s+/).length`: splitting on maximal whitespace runs
yields one more field than there are runs (boundary runs contribute
empty fields, exactly as the JS split does). -/
def wordCount (content : String) : Nat :=
  countWsRuns content.toList false + 1

/-- Number of occurrences of a character, modelling
`(content.match(/x/g) || []).length`. -/
def countChar (content : String) (ch : Char) : Nat :=
  content.toList.count ch

/-- `computeInitialSalience`: 0.3 base, length bonuses at 10/50/100
words, question-mark bonus capped at 0.15, exclamation bonus capped at
0.1, the total capped at 1.0. -/
def computeInitialSalience (content : String) : ℚ :=
  min
    (3 / 10
      + (if 10 < wordCount content then 1 / 10 else 0)
      + (if 50 < wordCount content then 1 / 10 else 0)
      + (if 100 < wordCount content then 1 / 10 else 0)
      + min ((countChar content '?' : ℚ) * (5 / 100)) (15 / 100)
      + min ((countChar content '!' : ℚ) * (3 / 100)) (1 / 10))
    1

/-- Raw experience record (src/memory/types.ts); metadata is opaque to
the encoder. -/
structure RawExperience where
  id : String
  type : String
  timestamp : Int
  content : String
  embedding : List ℚ
  salience : ℚ
  processed : Bool
  metadata : String
deriving DecidableEq, Repr

/-- `encodeExperience`: build the raw-experience record with a fresh id,
the current time, the embedding produced by the embed function and the
computed initial salience, flagged unprocessed. -/
def encodeExperience (newId : String) (now : Int) (content ty md : String)
    (embedding : List ℚ) : RawExperience :=
  { id := newId, type := ty, timestamp := now, content := content,
    embedding := embedding, salience := computeInitialSalience content,
    processed := false, metadata := md }

/-- C10.  For every input text the encoder's initial salience lies in
`[0.3, 0.85]`: the 0.3 base plus at most 0.3 of length bonus, 0.15 of
question bonus and 0.1 of exclamation bonus never reaches the 1.0 cap,
and every encoded raw experience carries exactly this salience, hence at
least 0.3. -/
theorem computeInitialSalience_bounds (newId : String) (now : Int)
    (content ty md : String) (embedding : List ℚ) :
    3 / 10 ≤ computeInitialSalience content ∧
      computeInitialSalience content ≤ 17 / 20 ∧
      (encodeExperience newId now content ty md embedding).salience =
        computeInitialSalience content := by
  have hw1 : (0 : ℚ) ≤ (if 10 < wordCount content then (1 : ℚ) / 10 else 0) ∧
      (if 10 < wordCount content then (1 : ℚ) / 10 else 0) ≤ 1 / 10 := by
    by_cases h : 10 < wordCount content <;> simp [h]
  have hw2 : (0 : ℚ) ≤ (if 50 < wordCount content then (1 : ℚ) / 10 else 0) ∧
      (if 50 < wordCount content then (1 : ℚ) / 10 else 0) ≤ 1 / 10 := by
    by_cases h : 50 < wordCount content <;> simp [h]
  have hw3 : (0 : ℚ) ≤ (if 100 < wordCount content then (1 : ℚ) / 10 else 0) ∧
      (if 100 < wordCount content then (1 : ℚ) / 10 else 0) ≤ 1 / 10 := by
    by_cases h : 100 < wordCount content <;> simp [h]
  have hq : (0 : ℚ) ≤ min ((countChar content '?' : ℚ) * (5 / 100)) (15 / 100) ∧
      min ((countChar content '?' : ℚ) * (5 / 100)) (15 / 100) ≤ 15 / 100 :=
    ⟨le_min (by positivity) (by norm_num), min_le_right _ _⟩
  have he : (0 : ℚ) ≤ min ((countChar content '!' : ℚ) * (3 / 100)) (1 / 10) ∧
      min ((countChar content '!' : ℚ) * (3 / 100)) (1 / 10) ≤ 1 / 10 :=
    ⟨le_min (by positivity) (by norm_num), min_le_right _ _⟩
  have hupper :
      3 / 10
        + (if 10 < wordCount content then (1 : ℚ) / 10 else 0)
        + (if 50 < wordCount content then (1 : ℚ) / 10 else 0)
        + (if 100 < wordCount content then (1 : ℚ) / 10 else 0)
        + min ((countChar content '?' : ℚ) * (5 / 100)) (15 / 100)
        + min ((countChar content '!' : ℚ) * (3 / 100)) (1 / 10) ≤
      17 / 20 := by
    have := hw1.2; have := hw2.2; have := hw3.2; have := hq.2; have := he.2
    linarith
  have hlower :
      (3 : ℚ) / 10 ≤
        3 / 10
          + (if 10 < wordCount content then (1 : ℚ) / 10 else 0)
          + (if 50 < wordCount content then (1 : ℚ) / 10 else 0)
          + (if 100 < wordCount content then (1 : ℚ) / 10 else 0)
          + min ((countChar content '?' : ℚ) * (5 / 100)) (15 / 100)
          + min ((countChar content '!' : ℚ) * (3 / 100)) (1 / 10) := by
    have := hw1.1; have := hw2.1; have := hw3.1; have := hq.1; have := he.1
    linarith
  refine ⟨?_, ?_, rfl⟩
  · exact le_min hlower (by norm_num)
  · unfold computeInitialSalience
    exact le_trans (min_le_left _ _) hupper

/-! ## Circuit breaker (circuit-breaker/breaker.ts)

`detectStuckLoop` (monologue/quiescence.ts) and the distress level of
`computeDistressLevel` (circuit-breaker/patterns.ts) are imported black
boxes of `evaluate` and enter the model as function parameters; the
claims quantify over their outcomes ("texts that trigger no stuck-loop
detection", "distress level ≥ threshold") exactly as the spec does. -/

/-- The five circuit-breaker action kinds. -/
inductive BreakerActionKind
  | contin
  | interrupt
  | interruptAndComfort
  | throttle
  | snapshotAndReset
deriving DecidableEq, Repr

/-- `CircuitBreakerAction` record. -/
structure CircuitBreakerAction where
  action : BreakerActionKind
  reason : Option String
  severity : Option String
  response : Option String
deriving DecidableEq, Repr

/-- `CircuitBreakerConfig`. -/
structure CircuitBreakerConfig where
  distressThreshold : ℚ
  maxConsecutiveDistress : Nat
  maxTokenVelocity : ℚ
  loopDetectionWindow : ℚ
deriving Repr

/-- Row of the circuit-breaker event table. -/
structure CircuitBreakerEvent where
  timestamp : Int
  action : BreakerActionKind
  reason : String
  severity : String
  bufferSnapshot : String
  responseTaken : String
deriving DecidableEq, Repr

/-- The `continue` verdict. -/
def continueResult : CircuitBreakerAction :=
  ⟨.contin, none, none, none⟩

/-- The distress interrupt verdict. -/
def interruptDistressResult : CircuitBreakerAction :=
  ⟨.interrupt, some "distress_detected", some "medium", none⟩

/-- The sustained-distress comfort verdict. -/
def comfortResult : CircuitBreakerAction :=
  ⟨.interruptAndComfort, some "sustained_distress", some "high",
    some "ambient_input"⟩

/-- The loop interrupt verdict. -/
def interruptLoopResult : CircuitBreakerAction :=
  ⟨.interrupt, some "loop_detected", some "medium", none⟩

/-- `text.slice(0, n)`: the first `n` characters of `text` (the whole
text when shorter), computed on the string's character list. -/
def sliceChars (text : String) (n : Nat) : String :=
  String.mk (text.toList.take n)

/-- The last `n` characters of `text` (the whole text when shorter);
this is what the spec asserts the snapshot to be. -/
def lastChars (n : Nat) (text : String) : String :=
  String.mk (text.toList.drop (text.toList.length - n))

/-- `logEvent`: any non-continue action is logged with a snapshot
`text.slice(0, 500)` of the evaluated text. -/
def logEvent (now : Int) (result : CircuitBreakerAction) (text : String) :
    Option CircuitBreakerEvent :=
  if result.action ≠ .contin then
    some
      { timestamp := now, action := result.action,
        reason := result.reason.getD "",
        severity := result.severity.getD "low",
        bufferSnapshot := sliceChars text 500,
        responseTaken := result.response.getD "" }
  else none

/-- `evaluate`: stuck-loop check first, then the distress ladder on the
consecutive-distress counter, else reset and continue.  Returns the
verdict, the updated counter and the logged event row (if any). -/
def evaluate (detectStuckLoop : String → Bool) (distressLevel : String → ℚ)
    (cfg : CircuitBreakerConfig) (now : Int) (consecutiveDistress : Nat)
    (text : String) :
    CircuitBreakerAction × Nat × Option CircuitBreakerEvent :=
  if detectStuckLoop text then
    (interruptLoopResult, consecutiveDistress,
      logEvent now interruptLoopResult text)
  else if cfg.distressThreshold ≤ distressLevel text then
    let c := consecutiveDistress + 1
    if cfg.maxConsecutiveDistress ≤ c then
      (comfortResult, c, logEvent now comfortResult text)
    else
      (interruptDistressResult, c, logEvent now interruptDistressResult text)
  else
    (continueResult, 0, none)

/-- Verdicts of a sequence of evaluations threading the
consecutive-distress counter. -/
def evaluateRun (stuck : String → Bool) (distress : String → ℚ)
    (cfg : CircuitBreakerConfig) (now : Int) :
    List String → Nat → List CircuitBreakerAction
  | [], _ => []
  | t :: ts, c =>
      let r := evaluate stuck distress cfg now c t
      r.1 :: evaluateRun stuck distress cfg now ts r.2.1

theorem evaluate_distress_step (stuck : String → Bool)
    (distress : String → ℚ) (cfg : CircuitBreakerConfig) (now : Int)
    (c : Nat) (t : String) (hstuck : stuck t = false)
    (hdist : cfg.distressThreshold ≤ distress t) :
    evaluate stuck distress cfg now c t =
      (if cfg.maxConsecutiveDistress ≤ c + 1 then comfortResult
          else interruptDistressResult,
        c + 1,
        logEvent now
          (if cfg.maxConsecutiveDistress ≤ c + 1 then comfortResult
            else interruptDistressResult) t) := by
  unfold evaluate
  rw [hstuck, if_neg (by simp), if_pos hdist]
  by_cases h : cfg.maxConsecutiveDistress ≤ c + 1
  · simp only [if_pos h]
  · simp only [if_neg h]

theorem evaluateRun_distress_get (stuck : String → Bool)
    (distress : String → ℚ) (cfg : CircuitBreakerConfig) (now : Int)
    (texts : List String) (hstuck : ∀ t ∈ texts, stuck t = false)
    (hdist : ∀ t ∈ texts, cfg.distressThreshold ≤ distress t) :
    ∀ (c k : Nat), k < texts.length →
      (evaluateRun stuck distress cfg now texts c)[k]? =
        some (if cfg.maxConsecutiveDistress ≤ c + k + 1 then comfortResult
          else interruptDistressResult) := by
  induction texts with
  | nil => intro c k hk; simp at hk
  | cons t ts ih =>
      intro c k hk
      have hstep := evaluate_distress_step stuck distress cfg now c t
        (hstuck t (List.mem_cons_self _ _))
        (hdist t (List.mem_cons_self _ _))
      cases k with
      | zero =>
          rw [evaluateRun]
          simp only [hstep, List.getElem?_cons_zero]
      | succ k =>
          rw [evaluateRun]
          simp only [hstep, List.getElem?_cons_succ]
          have := ih (fun x hx => hstuck x (List.mem_cons_of_mem _ hx))
            (fun x hx => hdist x (List.mem_cons_of_mem _ hx)) (c + 1) k
            (by simpa using Nat.lt_of_succ_lt_succ hk)
          rw [this]
          have harith : c + 1 + k + 1 = c + (k + 1) + 1 := by ring
          rw [harith]

/-- C7.  Distress escalation: starting from a zero consecutive-distress
counter, over any sequence of evaluations whose texts trigger no
stuck-loop detection and all carry distress level ≥ the threshold, the
k-th verdict (0-based) is `interrupt` with reason `distress_detected`
and severity `medium` while the counter `k+1` is still below
`max_consecutive_distress`, and `interrupt_and_comfort` with severity
`high` and response `ambient_input` once `k+1` reaches it — so after
`max_consecutive_distress` successive distress evaluations the next
distressed verdict is `interrupt_and_comfort`; and a single non-distress
non-stuck evaluation yields `continue` and resets the counter to
zero. -/
theorem distress_escalation (stuck : String → Bool)
    (distress : String → ℚ) (cfg : CircuitBreakerConfig) (now : Int)
    (texts : List String) (hstuck : ∀ t ∈ texts, stuck t = false)
    (hdist : ∀ t ∈ texts, cfg.distressThreshold ≤ distress t) :
    (∀ k : Nat, k < texts.length →
        (evaluateRun stuck distress cfg now texts 0)[k]? =
          some (if cfg.maxConsecutiveDistress ≤ k + 1 then comfortResult
            else interruptDistressResult)) ∧
      ∀ (c : Nat) (t : String), stuck t = false →
        distress t < cfg.distressThreshold →
        evaluate stuck distress cfg now c t = (continueResult, 0, none) := by
  constructor
  · intro k hk
    have := evaluateRun_distress_get stuck distress cfg now texts hstuck
      hdist 0 k hk
    simpa using this
  · intro c t hs hd
    unfold evaluate
    rw [hs, if_neg (by simp), if_neg (not_le.mpr hd)]

/-- Witness for C7: threshold 1, maximum 3, four distressed texts; the
first verdict is a distress interrupt, the third and fourth are comfort
verdicts, and a zero-distress text resets the counter. -/
theorem distress_escalation_witness :
    ((1 : ℚ) ≤ 1) ∧
      (evaluateRun (fun _ => false) (fun t => if t = "calm" then 0 else 1)
          ⟨1, 3, 0, 0⟩ 0 ["a", "b", "c", "d"] 0)[0]? =
        some interruptDistressResult ∧
      (evaluateRun (fun _ => false) (fun t => if t = "calm" then 0 else 1)
          ⟨1, 3, 0, 0⟩ 0 ["a", "b", "c", "d"] 0)[2]? =
        some comfortResult ∧
      (evaluateRun (fun _ => false) (fun t => if t = "calm" then 0 else 1)
          ⟨1, 3, 0, 0⟩ 0 ["a", "b", "c", "d"] 0)[3]? =
        some comfortResult ∧
      evaluate (fun _ => false) (fun t => if t = "calm" then 0 else 1)
          ⟨1, 3, 0, 0⟩ 0 2 "calm" = (continueResult, 0, none) := by
  have h := distress_escalation (fun _ => false)
    (fun t => if t = "calm" then 0 else 1) ⟨1, 3, 0, 0⟩ 0
    ["a", "b", "c", "d"] (by decide) (by decide)
  refine ⟨le_refl 1, ?_, ?_, ?_, ?_⟩
  · have := h.1 0 (by norm_num)
    simpa using this
  · have := h.1 2 (by norm_num)
    simpa using this
  · have := h.1 3 (by norm_num)
    simpa using this
  · exact h.2 2 "calm" rfl (by norm_num)

/-- C8 (amended).  Every event row produced by `evaluate` carries a
buffer snapshot equal to `text.slice(0, 500)` — the FIRST 500 characters
of the evaluated text (the whole text when shorter), not the last
500. -/
theorem evaluate_event_snapshot (stuck : String → Bool)
    (distress : String → ℚ) (cfg : CircuitBreakerConfig) (now : Int)
    (c : Nat) (text : String) (ev : CircuitBreakerEvent)
    (h : (evaluate stuck distress cfg now c text).2.2 = some ev) :
    ev.bufferSnapshot = sliceChars text 500 := by
  unfold evaluate at h
  split at h
  · have h' : logEvent now interruptLoopResult text = some ev := h
    unfold logEvent at h'
    rw [if_pos (by decide)] at h'
    cases h'
    rfl
  · split at h
    · dsimp only at h
      split at h
      · have h' : logEvent now comfortResult text = some ev := h
        unfold logEvent at h'
        rw [if_pos (by decide)] at h'
        cases h'
        rfl
      · have h' : logEvent now interruptDistressResult text = some ev := h
        unfold logEvent at h'
        rw [if_pos (by decide)] at h'
        cases h'
        rfl
    · exact absurd h (by simp)

/-- Witness for the amended C8 theorem: a stuck text logs an event whose
snapshot is the whole (short) text. -/
theorem evaluate_event_snapshot_witness :
    (evaluate (fun _ => true) (fun _ => 0) ⟨1, 3, 0, 0⟩ 0 0 "abc").2.2 =
        some ⟨0, .interrupt, "loop_detected", "medium", "abc", ""⟩ ∧
      (⟨0, .interrupt, "loop_detected", "medium", "abc", ""⟩ :
          CircuitBreakerEvent).bufferSnapshot = sliceChars "abc" 500 := by
  refine ⟨by decide, ?_⟩
  exact evaluate_event_snapshot (fun _ => true) (fun _ => 0) ⟨1, 3, 0, 0⟩ 0 0
    "abc" _ (by decide)

/-- Level 0.3 (one strong distress indicator), in reduced form. -/
def distressLevel310 : ℚ := ⟨3, 10, by decide, by decide⟩

/-- Text of 501 characters whose first 500 and last 500 characters
differ; it opens with the strong distress indicator "help me". -/
def ce8Text : String :=
  "help me " ++ String.mk (List.replicate 492 'a') ++ "b"

/-- Counterexample to C8 as stated: with distress threshold 0.3 and a
501-character buffer matching one strong distress pattern, the logged
event's snapshot is the FIRST 500 characters of the text, which differ
from the last 500 characters the claim prescribes. -/
theorem evaluate_event_snapshot_counterexample :
    (evaluate (fun _ => false) (fun _ => distressLevel310)
          ⟨distressLevel310, 3, 0, 0⟩ 0 0 ce8Text).1.action ≠
        BreakerActionKind.contin ∧
      ((evaluate (fun _ => false) (fun _ => distressLevel310)
            ⟨distressLevel310, 3, 0, 0⟩ 0 0 ce8Text).2.2).map
          (·.bufferSnapshot) = some (sliceChars ce8Text 500) ∧
      sliceChars ce8Text 500 ≠ lastChars 500 ce8Text := by
  refine ⟨by decide, by decide, by decide⟩

/-! ## Monologue cycle (monologue/loop.ts, `runOneCycle`)

The token stream is a list of string chunks; `isQuiescent`
(monologue/quiescence.ts) is an imported black box and enters as a
function parameter.  Pausing is a concurrency interaction and is not
part of the modelled cycle. -/

/-- Last 10 characters of the buffer (`buffer.slice(-10)`). -/
def tail10 (buffer : String) : List Char :=
  buffer.toList.drop (buffer.toList.length - 10)

/-- Test of `/[.!?]\s*$/` on the tail: some sentence-ending punctuation
followed by nothing but whitespace up to the end. -/
def sentenceBoundary (tail : List Char) : Bool :=
  match tail.reverse.dropWhile (fun c => c.isWhitespace) with
  | [] => false
  | c :: _ => c = '.' || c = '!' || c = '?'

/-- Test of `/\n\n$/` on the tail. -/
def endsDoubleNewline (tail : List Char) : Bool :=
  match tail.reverse with
  | '\n' :: '\n' :: _ => true
  | _ => false

/-- Token loop of `runOneCycle`.  Each token is appended whole; once the
character count reaches the budget the `overBudget` flag is set, and the
loop breaks at a sentence boundary or double newline, or when
`charCount ≥ 1.5 · budget` (stated as `3·budget ≤ 2·charCount`, exact
over the integers); every 200 characters past the last check a quiescent
buffer also breaks the loop.  The sentence-boundary and hard-cap breaks
are sequential in the source and both return the same buffer, so they
are combined in one condition. -/
def monologueCycle (isQ : String → Bool) (maxTokens : Nat) :
    List String → String → Nat → Bool → String
  | [], buffer, _, _ => buffer
  | tok :: rest, buffer, lastQCheck, overBudget =>
      let buffer' := buffer ++ tok
      let charCount := buffer'.length
      let overBudget' := overBudget || decide (maxTokens ≤ charCount)
      if overBudget' &&
          (sentenceBoundary (tail10 buffer') ||
            endsDoubleNewline (tail10 buffer') ||
            decide (3 * maxTokens ≤ 2 * charCount)) then
        buffer'
      else if 200 ≤ charCount - lastQCheck then
        if isQ buffer' then buffer'
        else monologueCycle isQ maxTokens rest buffer' charCount overBudget'
      else monologueCycle isQ maxTokens rest buffer' lastQCheck overBudget'

/-- One monologue cycle from an empty buffer. -/
def runOneCycle (isQ : String → Bool) (maxTokens : Nat)
    (tokens : List String) : String :=
  monologueCycle isQ maxTokens tokens "" 0 false

theorem monologueCycle_length_bound (isQ : String → Bool)
    (maxTokens L : Nat) :
    ∀ (tokens : List String) (buffer : String) (lastQCheck : Nat)
      (overBudget : Bool),
      (∀ t ∈ tokens, t.length ≤ L) →
      (buffer = "" ∨ 2 * buffer.length < 3 * maxTokens) →
      2 * (monologueCycle isQ maxTokens tokens buffer lastQCheck
            overBudget).length ≤ 3 * maxTokens + 2 * L := by
  intro tokens
  induction tokens with
  | nil =>
      intro buffer lastQCheck overBudget _ hbuf
      rw [monologueCycle]
      rcases hbuf with h | h
      · rw [h]
        simp
      · omega
  | cons tok rest ih =>
      intro buffer lastQCheck overBudget htok hbuf
      rw [monologueCycle]
      have htoklen : tok.length ≤ L := htok tok (List.mem_cons_self _ _)
      have hresttok : ∀ t ∈ rest, t.length ≤ L :=
        fun t ht => htok t (List.mem_cons_of_mem _ ht)
      have hlen' : (buffer ++ tok).length = buffer.length + tok.length :=
        String.length_append buffer tok
      have hbound : 2 * (buffer ++ tok).length ≤ 3 * maxTokens + 2 * L := by
        rcases hbuf with h | h
        · subst h
          rw [hlen']
          have h0 : ("" : String).length = 0 := rfl
          omega
        · omega
      split
      · exact hbound
      · next hbreak =>
          have hinv : 2 * (buffer ++ tok).length < 3 * maxTokens := by
            simp only [Bool.and_eq_true, Bool.or_eq_true, decide_eq_true_eq,
              not_and, not_or] at hbreak
            by_cases hob : overBudget = true
            · have hd := hbreak (Or.inl hob)
              omega
            · by_cases hcap : maxTokens ≤ (buffer ++ tok).length
              · have hd := hbreak (Or.inr hcap)
                omega
              · omega
          split
          · split
            · exact hbound
            · exact ih _ _ _ hresttok (Or.inr hinv)
          · exact ih _ _ _ hresttok (Or.inr hinv)

/-- C9 (amended).  The cycle's buffer can exceed the documented
1.5 × `max_tokens_per_cycle` hard cap only by the final token: when
every streamed token has length at most `L`, the finished buffer's
length is at most `1.5 · max_tokens_per_cycle + L` (stated doubled to
stay in integers).  The cap as claimed holds only up to the last
appended chunk, because the loop appends a whole token before checking
any break condition. -/
theorem runOneCycle_hard_cap (isQ : String → Bool) (maxTokens L : Nat)
    (tokens : List String) (hL : ∀ t ∈ tokens, t.length ≤ L) :
    2 * (runOneCycle isQ maxTokens tokens).length ≤
      3 * maxTokens + 2 * L :=
  monologueCycle_length_bound isQ maxTokens L tokens "" 0 false hL
    (Or.inl rfl)

/-- Witness for the amended C9 bound at a concrete stream. -/
theorem runOneCycle_hard_cap_witness :
    (∀ t ∈ ["ab", "cd"], String.length t ≤ 2) ∧
      2 * (runOneCycle (fun _ => false) 2 ["ab", "cd"]).length ≤
        3 * 2 + 2 * 2 :=
  ⟨by decide, runOneCycle_hard_cap (fun _ => false) 2 2 ["ab", "cd"]
    (by decide)⟩

/-- Counterexample to C9 as stated: with `max_tokens_per_cycle = 2` a
single 4-character token yields a finished buffer of 4 characters,
strictly more than the claimed unconditional bound of
1.5 × 2 = 3 characters. -/
theorem runOneCycle_exceeds_cap_counterexample :
    (runOneCycle (fun _ => false) 2 ["aaaa"]).length = 4 ∧
      ¬(2 * (runOneCycle (fun _ => false) 2 ["aaaa"]).length ≤ 3 * 2) := by
  exact ⟨by decide, by decide⟩

/-! ## Retrieval (src/memory/retrieval.ts) -/

/-- `RetrievalOptions`. -/
structure RetrievalOptions where
  queryEmbedding : List ℚ
  limit : Nat
  maxHops : Nat
  decayPerHop : ℚ
  activationThreshold : ℚ
deriving Repr

/-- Seed map of `retrieve`: each of the up-to-5 nearest entry nodes is
seeded with `cosine(query, node.embedding) · node.salience`. -/
def retrievalSeeds (sqrtQ : ℚ → ℚ) (g : MemoryGraph)
    (options : RetrievalOptions) : ActMap :=
  (g.findNearestNodes sqrtQ options.queryEmbedding (min 5 g.nodeCount)).foldl
    (fun m n =>
      alistSet m n.id
        (cosineSimilarity sqrtQ options.queryEmbedding n.embedding *
          n.salience))
    []

/-- Activation map produced by step 3 of `retrieve`. -/
def retrievalActivations (sqrtQ : ℚ → ℚ) (g : MemoryGraph)
    (options : RetrievalOptions) : ActMap :=
  g.spreadActivation (retrievalSeeds sqrtQ g options)
    ⟨options.maxHops, options.decayPerHop⟩

/-- Step 4 of `retrieve`: keep entries strictly above the activation
threshold, sort by activation descending, truncate to `limit`. -/
def retrievalSurfaced (sqrtQ : ℚ → ℚ) (g : MemoryGraph)
    (options : RetrievalOptions) : ActMap :=
  (((retrievalActivations sqrtQ g options).filter
        (fun p => options.activationThreshold < p.2)).insertionSort
      (fun x y => y.2 ≤ x.2)).take
    options.limit

/-- `retrieve`: empty graph yields no results; otherwise threshold, sort
and truncate the activation map, reinforce each surfaced node, and
return the surfaced nodes (dropping ids the graph cannot resolve)
together with the mutated graph. -/
def retrieve (sqrtQ : ℚ → ℚ) (now : Int) (g : MemoryGraph)
    (options : RetrievalOptions) : List GraphNode × MemoryGraph :=
  if g.nodeCount = 0 then ([], g)
  else
    let surfaced := retrievalSurfaced sqrtQ g options
    let g' := surfaced.foldl (fun h p => h.reinforceNode now p.1) g
    (surfaced.filterMap (fun p => g'.getNode p.1), g')

/-! ### Supporting lemmas for the retrieval contract -/

theorem mergeFrontier_nodup {act nf : ActMap}
    (hact : (alistKeys act).Nodup) :
    (alistKeys (mergeFrontier act nf)).Nodup := by
  induction nf generalizing act with
  | nil => exact hact
  | cons p nf ih =>
      obtain ⟨k₀, v₀⟩ := p
      rw [mergeFrontier_cons]
      exact ih (alistKeys_alistSet_nodup hact)

theorem spreadLoop_act_nodup (g : MemoryGraph) (d : ℚ) :
    ∀ (h : Nat) (fr act : ActMap), (alistKeys act).Nodup →
      (alistKeys (g.spreadLoop d h fr act)).Nodup := by
  intro h
  induction h with
  | zero => intro fr act hact; exact hact
  | succ h ih =>
      intro fr act hact
      rw [MemoryGraph.spreadLoop]
      exact ih _ _ (mergeFrontier_nodup hact)

theorem foldl_alistSet_nodup {α : Type} (key : α → String) (val : α → ℚ) :
    ∀ (l : List α) (m : ActMap), (alistKeys m).Nodup →
      (alistKeys (l.foldl (fun m x => alistSet m (key x) (val x)) m)).Nodup := by
  intro l
  induction l with
  | nil => exact fun m hm => hm
  | cons x l ih =>
      intro m hm
      rw [List.foldl_cons]
      exact ih _ (alistKeys_alistSet_nodup hm)

theorem retrievalActivations_nodup (sqrtQ : ℚ → ℚ) (g : MemoryGraph)
    (options : RetrievalOptions) :
    (alistKeys (retrievalActivations sqrtQ g options)).Nodup := by
  unfold retrievalActivations MemoryGraph.spreadActivation
  apply spreadLoop_act_nodup
  unfold retrievalSeeds
  exact foldl_alistSet_nodup _ _ _ [] (by simp [alistKeys])

theorem actGet_of_mem {m : ActMap} (hm : (alistKeys m).Nodup)
    {p : String × ℚ} (hp : p ∈ m) : actGet m p.1 = p.2 := by
  induction m with
  | nil => cases hp
  | cons q m ih =>
      obtain ⟨k₀, v₀⟩ := q
      have hcons : (k₀ :: alistKeys m).Nodup := hm
      rcases List.mem_cons.mp hp with h | h
      · rw [h, actGet_cons, if_pos rfl]
      · have hne : p.1 ≠ k₀ := by
          intro hc
          exact (List.nodup_cons.mp hcons).1 (hc ▸ mem_keys_of_mem h)
        rw [actGet_cons, if_neg hne]
        exact ih (List.nodup_cons.mp hcons).2 h

/-- Access bump performed by `reinforceNode` on the matched node. -/
def reinforceBump (now : Int) (n : GraphNode) : GraphNode :=
  { n with accessCount := n.accessCount + 1, lastAccessed := now }

theorem find?_reinforce_map (now : Int) (i id : String)
    (l : List GraphNode) :
    (l.map (fun n => if n.id = i then reinforceBump now n else n)).find?
        (fun n => n.id = id) =
      if id = i then (l.find? (fun n => n.id = id)).map (reinforceBump now)
      else l.find? (fun n => n.id = id) := by
  induction l with
  | nil => by_cases h : id = i <;> simp [h]
  | cons n rest ih =>
      rw [List.map_cons]
      have hhead : (if n.id = i then reinforceBump now n else n).id = n.id := by
        by_cases h : n.id = i <;> simp [h, reinforceBump]
      by_cases hn : n.id = id
      · rw [List.find?_cons_of_pos _ (by rw [hhead]; simp [hn]),
          List.find?_cons_of_pos _ (by simp [hn])]
        by_cases h : id = i
        · rw [if_pos h, if_pos (hn.trans h)]
          simp
        · rw [if_neg h, if_neg (fun hc => h (hn.symm.trans hc))]
      · rw [List.find?_cons_of_neg _ (by rw [hhead]; simp [hn]),
          List.find?_cons_of_neg _ (by simp [hn]), ih]

theorem getNode_reinforceNode (g : MemoryGraph) (now : Int)
    (i id : String) :
    (g.reinforceNode now i).getNode id =
      if id = i then (g.getNode id).map (reinforceBump now)
      else g.getNode id :=
  find?_reinforce_map now i id g.nodes

theorem getNode_foldl_reinforce_not_mem (now : Int) (id : String) :
    ∀ (ids : ActMap) (g : MemoryGraph), id ∉ alistKeys ids →
      ((ids.foldl (fun h p => h.reinforceNode now p.1) g).getNode id) =
        g.getNode id := by
  intro ids
  induction ids with
  | nil => intro g _; rfl
  | cons p rest ih =>
      intro g hid
      have hne : id ≠ p.1 := by
        intro hc
        exact hid (by simp [alistKeys, hc])
      have hrest : id ∉ alistKeys rest := by
        intro hc
        exact hid (by simp [alistKeys] at hc ⊢; exact Or.inr hc)
      rw [List.foldl_cons, ih _ hrest, getNode_reinforceNode, if_neg hne]

theorem getNode_foldl_reinforce_mem (now : Int) (id : String) :
    ∀ (ids : ActMap) (g : MemoryGraph), (alistKeys ids).Nodup →
      id ∈ alistKeys ids →
      ((ids.foldl (fun h p => h.reinforceNode now p.1) g).getNode id) =
        (g.getNode id).map (reinforceBump now) := by
  intro ids
  induction ids with
  | nil => intro g _ h; cases h
  | cons p rest ih =>
      intro g hnodup hid
      have hcons : (p.1 :: alistKeys rest).Nodup := hnodup
      rw [List.foldl_cons]
      by_cases h : id = p.1
      · have hrest : id ∉ alistKeys rest := by
          rw [h]
          exact (List.nodup_cons.mp hcons).1
        rw [getNode_foldl_reinforce_not_mem now id rest _ hrest,
          getNode_reinforceNode, if_pos h]
      · have hrest : id ∈ alistKeys rest := by
          rcases List.mem_cons.mp hid with hc | hc
          · exact absurd hc h
          · exact hc
        rw [ih _ (List.nodup_cons.mp hcons).2 hrest, getNode_reinforceNode,
          if_neg h]

theorem retrievalSurfaced_keys_nodup (sqrtQ : ℚ → ℚ) (g : MemoryGraph)
    (options : RetrievalOptions) :
    (alistKeys (retrievalSurfaced sqrtQ g options)).Nodup := by
  have hA := retrievalActivations_nodup sqrtQ g options
  have hfil : (alistKeys ((retrievalActivations sqrtQ g options).filter
      (fun p => options.activationThreshold < p.2))).Nodup :=
    hA.sublist (List.Sublist.map _ (List.filter_sublist _))
  have hsort : (alistKeys (((retrievalActivations sqrtQ g options).filter
      (fun p => options.activationThreshold < p.2)).insertionSort
        (fun x y => y.2 ≤ x.2))).Nodup := by
    refine ((List.Perm.map _ (List.perm_insertionSort _ _)).nodup_iff).mpr hfil
  exact hsort.sublist (List.Sublist.map _ (List.take_sublist _ _))

theorem mem_retrievalSurfaced (sqrtQ : ℚ → ℚ) (g : MemoryGraph)
    (options : RetrievalOptions) {p : String × ℚ}
    (hp : p ∈ retrievalSurfaced sqrtQ g options) :
    p ∈ retrievalActivations sqrtQ g options ∧
      options.activationThreshold < p.2 := by
  have h1 := (List.take_sublist _ _).subset hp
  have h2 := (List.mem_insertionSort _).mp h1
  have h3 := List.mem_filter.mp h2
  exact ⟨h3.1, by simpa using h3.2⟩

theorem getNode_id_eq {g : MemoryGraph} {id : String} {n : GraphNode}
    (h : g.getNode id = some n) : n.id = id := by
  have := List.find?_some h
  simpa using this

/-- C6 (amended).  Retrieval contract: an empty graph returns the empty
list and leaves the graph untouched; otherwise at most `limit` nodes are
returned, in non-increasing activation order; thresholding keeps exactly
the activation entries STRICTLY above `activation_threshold` (an entry
equal to the threshold is dropped), so every surviving entry reaches the
sorted candidate list and every returned node's activation is strictly
above the threshold; and every returned node is reinforced — its access
count is exactly one more than the stored node's, with its last-accessed
time set to the retrieval instant. -/
theorem retrieve_contract (sqrtQ : ℚ → ℚ) (now : Int) (g : MemoryGraph)
    (options : RetrievalOptions) :
    (g.nodes = [] → retrieve sqrtQ now g options = ([], g)) ∧
      (retrieve sqrtQ now g options).1.length ≤ options.limit ∧
      List.Pairwise
        (fun n1 n2 : GraphNode =>
          actGet (retrievalActivations sqrtQ g options) n2.id ≤
            actGet (retrievalActivations sqrtQ g options) n1.id)
        (retrieve sqrtQ now g options).1 ∧
      (∀ p ∈ retrievalActivations sqrtQ g options,
        options.activationThreshold < p.2 →
          p ∈ ((retrievalActivations sqrtQ g options).filter
              (fun q => options.activationThreshold < q.2)).insertionSort
            (fun x y => y.2 ≤ x.2)) ∧
      (∀ n ∈ (retrieve sqrtQ now g options).1,
        options.activationThreshold <
          actGet (retrievalActivations sqrtQ g options) n.id) ∧
      (∀ n ∈ (retrieve sqrtQ now g options).1, ∃ n₀,
        g.getNode n.id = some n₀ ∧ n.accessCount = n₀.accessCount + 1 ∧
          n.lastAccessed = now) := by
  classical
  have hthresh : ∀ p ∈ retrievalActivations sqrtQ g options,
      options.activationThreshold < p.2 →
        p ∈ ((retrievalActivations sqrtQ g options).filter
            (fun q => options.activationThreshold < q.2)).insertionSort
          (fun x y => y.2 ≤ x.2) := by
    intro p hp hlt
    exact (List.mem_insertionSort _).mpr
      (List.mem_filter.mpr ⟨hp, by simpa using hlt⟩)
  by_cases hempty : g.nodeCount = 0
  · have hret : retrieve sqrtQ now g options = ([], g) := by
      unfold retrieve
      rw [if_pos hempty]
    rw [hret]
    refine ⟨fun _ => rfl, by simp, by simp, hthresh, by simp, by simp⟩
  · have hret : retrieve sqrtQ now g options =
        ((retrievalSurfaced sqrtQ g options).filterMap
            (fun p =>
              ((retrievalSurfaced sqrtQ g options).foldl
                  (fun h p => h.reinforceNode now p.1) g).getNode p.1),
          (retrievalSurfaced sqrtQ g options).foldl
            (fun h p => h.reinforceNode now p.1) g) := by
      unfold retrieve
      rw [if_neg hempty]
    have hsurfnodup := retrievalSurfaced_keys_nodup sqrtQ g options
    have hAnodup := retrievalActivations_nodup sqrtQ g options
    have hnodelookup : ∀ p ∈ retrievalSurfaced sqrtQ g options, ∀ n,
        ((retrievalSurfaced sqrtQ g options).foldl
            (fun h p => h.reinforceNode now p.1) g).getNode p.1 = some n →
        ∃ n₀, g.getNode p.1 = some n₀ ∧ n = reinforceBump now n₀ := by
      intro p hp n hn
      rw [getNode_foldl_reinforce_mem now p.1 _ g hsurfnodup
        (mem_keys_of_mem hp)] at hn
      cases hfind : g.getNode p.1 with
      | none => rw [hfind] at hn; cases hn
      | some n₀ =>
          rw [hfind] at hn
          exact ⟨n₀, rfl, by simpa using hn.symm⟩
    refine ⟨?_, ?_, ?_, hthresh, ?_, ?_⟩
    · intro hnil
      exact absurd (by simp [MemoryGraph.nodeCount, hnil]) hempty
    · rw [hret]
      calc ((retrievalSurfaced sqrtQ g options).filterMap _).length
          ≤ (retrievalSurfaced sqrtQ g options).length :=
            List.length_filterMap_le _ _
        _ ≤ options.limit := by
            unfold retrievalSurfaced
            exact List.length_take_le _ _
    · rw [hret]
      haveI : IsTotal (String × ℚ) (fun x y => y.2 ≤ x.2) :=
        ⟨fun a b => (le_total a.2 b.2).symm⟩
      haveI : IsTrans (String × ℚ) (fun x y => y.2 ≤ x.2) :=
        ⟨fun _ _ _ h1 h2 => le_trans h2 h1⟩
      have hsortedAll : List.Pairwise (fun x y : String × ℚ => y.2 ≤ x.2)
          (((retrievalActivations sqrtQ g options).filter
              (fun q => options.activationThreshold < q.2)).insertionSort
            (fun x y => y.2 ≤ x.2)) :=
        List.sorted_insertionSort _ _
      have hsurfsorted : List.Pairwise (fun x y : String × ℚ => y.2 ≤ x.2)
          (retrievalSurfaced sqrtQ g options) :=
        List.Pairwise.sublist (List.take_sublist _ _) hsortedAll
      have hsurfsorted' : List.Pairwise
          (fun x y : String × ℚ =>
            actGet (retrievalActivations sqrtQ g options) y.1 ≤
              actGet (retrievalActivations sqrtQ g options) x.1)
          (retrievalSurfaced sqrtQ g options) := by
        refine hsurfsorted.imp_of_mem ?_
        intro a b ha hb hle
        rw [actGet_of_mem hAnodup (mem_retrievalSurfaced sqrtQ g options ha).1,
          actGet_of_mem hAnodup (mem_retrievalSurfaced sqrtQ g options hb).1]
        exact hle
      refine List.Pairwise.filterMap _ ?_ hsurfsorted'
      intro a a' hr b hb b' hb'
      have hbid : b.id = a.1 := getNode_id_eq (Option.mem_def.mp hb)
      have hbid' : b'.id = a'.1 := getNode_id_eq (Option.mem_def.mp hb')
      rw [hbid, hbid']
      exact hr
    · rw [hret]
      intro n hn
      obtain ⟨p, hp, hpn⟩ := List.mem_filterMap.mp hn
      obtain ⟨n₀, hn₀, hbump⟩ := hnodelookup p hp n hpn
      have hid : n.id = p.1 := by
        simp only [hbump, reinforceBump]
        exact getNode_id_eq hn₀
      rw [hid, actGet_of_mem hAnodup (mem_retrievalSurfaced sqrtQ g options hp).1]
      exact (mem_retrievalSurfaced sqrtQ g options hp).2
    · rw [hret]
      intro n hn
      obtain ⟨p, hp, hpn⟩ := List.mem_filterMap.mp hn
      obtain ⟨n₀, hn₀, hbump⟩ := hnodelookup p hp n hpn
      have hid : n.id = p.1 := by
        simp only [hbump, reinforceBump]
        exact getNode_id_eq hn₀
      refine ⟨n₀, by rw [hid]; exact hn₀, ?_, ?_⟩
      · rw [hbump]; rfl
      · rw [hbump]; rfl

theorem ratSqrt_one : ratSqrt 1 = 1 := by
  unfold ratSqrt
  norm_num [Int.sqrt, Nat.sqrt_one]

/-- Counterexample graph for C6: a single node whose seed activation
equals the threshold exactly. -/
def ceGraphC6 : MemoryGraph :=
  ⟨[{ id := "A", type := "episode", embedding := [1], salience := 1 / 2,
      created := none, lastAccessed := 0, accessCount := 0,
      data := emptyNodeData }], []⟩

/-- Retrieval options for the C6 counterexample: threshold 1/2, zero
hops. -/
def ceOptionsC6 : RetrievalOptions :=
  ⟨[1], 10, 0, 1, 1 / 2⟩

/-- Counterexample to C6 as stated: the node's activation equals the
threshold (cosine 1 times salience 1/2 with threshold 1/2), yet
`retrieve` drops it — the filter keeps only entries STRICTLY above the
threshold, so an entry with activation ≥ threshold does not always
survive thresholding. -/
theorem retrieve_drops_at_threshold_counterexample :
    actGet (retrievalActivations ratSqrt ceGraphC6 ceOptionsC6) "A" =
        ceOptionsC6.activationThreshold ∧
      (retrieve ratSqrt 0 ceGraphC6 ceOptionsC6).1 = [] := by
  have hseeds : retrievalSeeds ratSqrt ceGraphC6 ceOptionsC6 =
      [("A", 1 / 2)] := by
    unfold retrievalSeeds MemoryGraph.findNearestNodes ceGraphC6 ceOptionsC6
    simp only [MemoryGraph.nodeCount]
    norm_num [cosineSimilarity, dotProduct, magnitudeSq, ratSqrt_one,
      List.insertionSort, alistSet, actGet, alistGet?]
  have hact : retrievalActivations ratSqrt ceGraphC6 ceOptionsC6 =
      [("A", 1 / 2)] := by
    unfold retrievalActivations MemoryGraph.spreadActivation
    rw [hseeds]
    rfl
  have hsurf : retrievalSurfaced ratSqrt ceGraphC6 ceOptionsC6 = [] := by
    unfold retrievalSurfaced
    rw [hact]
    norm_num [ceOptionsC6, List.insertionSort]
  constructor
  · rw [hact]
    norm_num [actGet, alistGet?, ceOptionsC6]
  · unfold retrieve
    rw [if_neg (by norm_num [ceGraphC6, MemoryGraph.nodeCount])]
    rw [hsurf]
    rfl

/-- Witness for the C6 contract on the empty graph and on the
counterexample graph. -/
theorem retrieve_contract_witness :
    (MemoryGraph.mk [] []).nodes = [] ∧
      retrieve ratSqrt 0 (MemoryGraph.mk [] []) ceOptionsC6 =
        ([], MemoryGraph.mk [] []) ∧
      (retrieve ratSqrt 0 ceGraphC6 ceOptionsC6).1.length ≤
        ceOptionsC6.limit :=
  ⟨rfl, (retrieve_contract ratSqrt 0 (MemoryGraph.mk [] []) ceOptionsC6).1 rfl,
    (retrieve_contract ratSqrt 0 ceGraphC6 ceOptionsC6).2.1⟩

/-! ## Consolidation candidate processing (consolidation/engine.ts,
step 3 of `consolidate`) -/

/-- Exemplar as returned by the abstraction model. -/
structure CandidateExemplar where
  quote : String
  significance : String
deriving DecidableEq, Repr

/-- Episode candidate returned by the abstraction model. -/
structure CandidateEpisode where
  summary : String
  topics : List String
  salience : ℚ
  confidence : ℚ
  exemplars : List CandidateExemplar
  patterns : List String
deriving DecidableEq, Repr

/-- Merge mutation of the nearest node: concatenate summaries, extend
exemplars (candidate exemplars are stamped with the current time), set
salience to `min(1, max(existing, candidate))`. -/
def mergedNode (now : Int) (ep : CandidateEpisode) (n : GraphNode) :
    GraphNode :=
  { n with
    data :=
      { n.data with
        summary := n.data.summary ++ " " ++ ep.summary,
        exemplars := n.data.exemplars ++
          ep.exemplars.map (fun e => ⟨e.quote, e.significance, now⟩) },
    salience := min 1 (max n.salience ep.salience) }

/-- Additive link strengthening of the merge path: `+0.1` capped at
`1`. -/
def strengthenLink (l : GraphLink) : GraphLink :=
  { l with strength := min 1 (l.strength + 1 / 10) }

/-- Node-map update of the merge branch. -/
def mergeUpdateNodes (now : Int) (ep : CandidateEpisode)
    (targetId : String) (l : List GraphNode) : List GraphNode :=
  l.map (fun n => if n.id = targetId then mergedNode now ep n else n)

/-- The merge branch: update the matched node, reinforce it, and
strengthen each of its existing outgoing links. -/
def mergeCandidate (now : Int) (g : MemoryGraph) (targetId : String)
    (ep : CandidateEpisode) : MemoryGraph :=
  let g1 : MemoryGraph := { g with nodes := mergeUpdateNodes now ep targetId g.nodes }
  let g2 := g1.reinforceNode now targetId
  let newLinks := g2.links.map
    (fun pr => if pr.1 = targetId then (pr.1, pr.2.map strengthenLink) else pr)
  { g2 with links := newLinks }

/-- The fresh episode node built by the insert branch. -/
def newEpisodeNode (now : Int) (newId : String) (emb : List ℚ)
    (ep : CandidateEpisode) : GraphNode :=
  { id := newId, type := "episode", embedding := emb,
    salience := ep.salience, created := some now, lastAccessed := now,
    accessCount := 0,
    data :=
      { summary := ep.summary, topics := ep.topics,
        confidence := ep.confidence,
        exemplars :=
          ep.exemplars.map (fun e => ⟨e.quote, e.significance, now⟩),
        patterns := ep.patterns, before := [], after := [],
        gap := ⟨0, none⟩ } }

/-- The insert branch: add a fresh episode node for the candidate, then
link it thematically (strength 0.5) to up to 3 nearest existing nodes,
excluding itself. -/
def insertCandidate (sqrtQ : ℚ → ℚ) (now : Int) (newId : String)
    (g : MemoryGraph) (emb : List ℚ) (ep : CandidateEpisode) :
    MemoryGraph :=
  let g1 := g.addNode (newEpisodeNode now newId emb ep)
  if 1 < g1.nodeCount then
    (g1.findNearestNodes sqrtQ emb 3).foldl
      (fun h neighbor =>
        if neighbor.id ≠ newId then
          h.addLink newId neighbor.id (1 / 2) "thematic"
        else h)
      g1
  else g1

/-- Step 3 of `consolidate` for one candidate whose summary embedding is
`emb`: when the graph is nonempty and the single nearest node has cosine
similarity strictly above 0.85, merge into it; otherwise insert a new
node. -/
def consolidateCandidate (sqrtQ : ℚ → ℚ) (now : Int) (newId : String)
    (g : MemoryGraph) (emb : List ℚ) (ep : CandidateEpisode) :
    MemoryGraph :=
  let nearest := if 0 < g.nodeCount then g.findNearestNodes sqrtQ emb 1
    else []
  match nearest with
  | nearest₀ :: _ =>
      if (17 : ℚ) / 20 < cosineSimilarity sqrtQ emb nearest₀.embedding then
        mergeCandidate now g nearest₀.id ep
      else insertCandidate sqrtQ now newId g emb ep
  | [] => insertCandidate sqrtQ now newId g emb ep

/-! ### Lemmas for the merge path -/

theorem find?_map_update (f : GraphNode → GraphNode)
    (hf : ∀ n, (f n).id = n.id) (i id : String) (l : List GraphNode) :
    (l.map (fun n => if n.id = i then f n else n)).find?
        (fun n => n.id = id) =
      if id = i then (l.find? (fun n => n.id = id)).map f
      else l.find? (fun n => n.id = id) := by
  induction l with
  | nil => by_cases h : id = i <;> simp [h]
  | cons n rest ih =>
      rw [List.map_cons]
      have hhead : (if n.id = i then f n else n).id = n.id := by
        by_cases h : n.id = i <;> simp [h, hf]
      by_cases hn : n.id = id
      · rw [List.find?_cons_of_pos _ (by rw [hhead]; simp [hn]),
          List.find?_cons_of_pos _ (by simp [hn])]
        by_cases h : id = i
        · rw [if_pos h, if_pos (hn.trans h)]
          simp
        · rw [if_neg h, if_neg (fun hc => h (hn.symm.trans hc))]
      · rw [List.find?_cons_of_neg _ (by rw [hhead]; simp [hn]),
          List.find?_cons_of_neg _ (by simp [hn]), ih]

theorem alistGet?_map_update {β : Type} (f : β → β) (i id : String)
    (m : List (String × β)) :
    alistGet? (m.map (fun pr => if pr.1 = i then (pr.1, f pr.2) else pr))
        id =
      if id = i then (alistGet? m id).map f else alistGet? m id := by
  induction m with
  | nil => by_cases h : id = i <;> simp [alistGet?, h]
  | cons pr rest ih =>
      rw [List.map_cons]
      have hhead : (if pr.1 = i then (pr.1, f pr.2) else pr).1 = pr.1 := by
        by_cases h : pr.1 = i <;> simp [h]
      unfold alistGet? at ih ⊢
      by_cases hn : pr.1 = id
      · rw [List.find?_cons_of_pos _ (by rw [hhead]; simp [hn]),
          List.find?_cons_of_pos _ (by simp [hn])]
        by_cases h : id = i
        · rw [if_pos h]
          have : pr.1 = i := hn.trans h
          rw [if_pos this]
          simp
        · rw [if_neg h]
          have : ¬ pr.1 = i := fun hc => h (hn.symm.trans hc)
          rw [if_neg this]
      · rw [List.find?_cons_of_neg _ (by rw [hhead]; simp [hn]),
          List.find?_cons_of_neg _ (by simp [hn]), ih]

theorem mergeCandidate_nodeCount (now : Int) (g : MemoryGraph)
    (targetId : String) (ep : CandidateEpisode) :
    (mergeCandidate now g targetId ep).nodeCount = g.nodeCount := by
  unfold mergeCandidate MemoryGraph.reinforceNode MemoryGraph.nodeCount
    mergeUpdateNodes
  simp

theorem mergeCandidate_getNode (now : Int) (g : MemoryGraph)
    (targetId : String) (ep : CandidateEpisode) :
    (mergeCandidate now g targetId ep).getNode targetId =
      (g.getNode targetId).map
        (fun n => reinforceBump now (mergedNode now ep n)) := by
  have h0 : (mergeCandidate now g targetId ep).getNode targetId =
      (({ g with nodes := mergeUpdateNodes now ep targetId g.nodes } :
          MemoryGraph).reinforceNode now targetId).getNode targetId := rfl
  rw [h0, getNode_reinforceNode, if_pos rfl]
  have h1 : ({ g with nodes := mergeUpdateNodes now ep targetId g.nodes } :
      MemoryGraph).getNode targetId =
        (g.getNode targetId).map (mergedNode now ep) := by
    show (mergeUpdateNodes now ep targetId g.nodes).find?
        (fun n => n.id = targetId) = _
    rw [mergeUpdateNodes,
      find?_map_update (mergedNode now ep) (fun n => rfl) targetId targetId,
      if_pos rfl]
    rfl
  rw [h1, Option.map_map]
  rfl

theorem mergeCandidate_getLinks (now : Int) (g : MemoryGraph)
    (targetId : String) (ep : CandidateEpisode) :
    (mergeCandidate now g targetId ep).getLinks targetId =
      (g.getLinks targetId).map strengthenLink := by
  show (alistGet?
      (g.links.map
        (fun pr => if pr.1 = targetId then (pr.1, pr.2.map strengthenLink)
          else pr)) targetId).getD [] =
    ((alistGet? g.links targetId).getD []).map strengthenLink
  rw [alistGet?_map_update (List.map strengthenLink) targetId targetId,
    if_pos rfl]
  cases alistGet? g.links targetId <;> rfl

theorem nodes_foldl_addLink (newId : String) (s : ℚ) (ty : String) :
    ∀ (l : List GraphNode) (g : MemoryGraph),
      (l.foldl
          (fun h neighbor =>
            if neighbor.id ≠ newId then h.addLink newId neighbor.id s ty
            else h)
          g).nodes = g.nodes := by
  intro l
  induction l with
  | nil => intro g; rfl
  | cons nb rest ih =>
      intro g
      rw [List.foldl_cons, ih]
      by_cases h : nb.id ≠ newId
      · rw [if_pos h]
        rfl
      · rw [if_neg h]

theorem insertCandidate_nodes (sqrtQ : ℚ → ℚ) (now : Int)
    (newId : String) (g : MemoryGraph) (emb : List ℚ)
    (ep : CandidateEpisode) :
    (insertCandidate sqrtQ now newId g emb ep).nodes =
      (g.addNode (newEpisodeNode now newId emb ep)).nodes := by
  unfold insertCandidate
  by_cases h : 1 < (g.addNode (newEpisodeNode now newId emb ep)).nodeCount
  · rw [if_pos h, nodes_foldl_addLink]
  · rw [if_neg h]

/-- C4 (amended).  Consolidation merge rule with a STRICT 0.85 boundary:
when the graph is nonempty and the candidate's summary embedding has
cosine similarity strictly greater than 0.85 to the single nearest node,
no new node is inserted — the node count is unchanged and the nearest
node is replaced by its merged form: summary concatenated, exemplars
extended, salience raised to max(existing, candidate) (both being at
most 1), access count incremented by one with last-accessed set to now,
and every existing outgoing link strengthened by +0.1 capped at 1. -/
theorem consolidation_merge_rule (sqrtQ : ℚ → ℚ) (now : Int)
    (newId : String) (g : MemoryGraph) (emb : List ℚ)
    (ep : CandidateEpisode) (nst : GraphNode)
    (hcount : 0 < g.nodeCount)
    (hfind : g.findNearestNodes sqrtQ emb 1 = [nst])
    (hcos : (17 : ℚ) / 20 < cosineSimilarity sqrtQ emb nst.embedding)
    (hsal1 : nst.salience ≤ 1) (hsal2 : ep.salience ≤ 1) :
    consolidateCandidate sqrtQ now newId g emb ep =
        mergeCandidate now g nst.id ep ∧
      (consolidateCandidate sqrtQ now newId g emb ep).nodeCount =
        g.nodeCount ∧
      (consolidateCandidate sqrtQ now newId g emb ep).getNode nst.id =
        (g.getNode nst.id).map
          (fun n => reinforceBump now (mergedNode now ep n)) ∧
      (mergedNode now ep nst).salience = max nst.salience ep.salience ∧
      (mergedNode now ep nst).data.summary =
        nst.data.summary ++ " " ++ ep.summary ∧
      (mergedNode now ep nst).data.exemplars =
        nst.data.exemplars ++
          ep.exemplars.map (fun e => ⟨e.quote, e.significance, now⟩) ∧
      (reinforceBump now (mergedNode now ep nst)).accessCount =
        nst.accessCount + 1 ∧
      (consolidateCandidate sqrtQ now newId g emb ep).getLinks nst.id =
        (g.getLinks nst.id).map strengthenLink ∧
      ∀ l ∈ g.getLinks nst.id,
        (strengthenLink l).strength = min 1 (l.strength + 1 / 10) := by
  have hmain : consolidateCandidate sqrtQ now newId g emb ep =
      mergeCandidate now g nst.id ep := by
    unfold consolidateCandidate
    rw [if_pos hcount, hfind]
    show (if (17 : ℚ) / 20 < cosineSimilarity sqrtQ emb nst.embedding then
        mergeCandidate now g nst.id ep
      else insertCandidate sqrtQ now newId g emb ep) = _
    rw [if_pos hcos]
  refine ⟨hmain, ?_, ?_, ?_, rfl, rfl, rfl, ?_, fun l _ => rfl⟩
  · rw [hmain]
    exact mergeCandidate_nodeCount now g nst.id ep
  · rw [hmain]
    exact mergeCandidate_getNode now g nst.id ep
  · show min 1 (max nst.salience ep.salience) = max nst.salience ep.salience
    exact min_eq_right (max_le hsal1 hsal2)
  · rw [hmain]
    exact mergeCandidate_getLinks now g nst.id ep

/-- Witness node for C4: unit embedding `[3/5, 4/5]`. -/
def witnessNodeC4 : GraphNode :=
  { id := "B", type := "episode", embedding := [3 / 5, 4 / 5],
    salience := 1 / 2, created := none, lastAccessed := 0,
    accessCount := 0, data := emptyNodeData }

/-- Witness graph for C4. -/
def witnessGraphC4 : MemoryGraph :=
  ⟨[witnessNodeC4], []⟩

/-- Witness candidate for C4. -/
def witnessEpC4 : CandidateEpisode :=
  ⟨"cand", [], 3 / 4, 1 / 2, [], []⟩

/-- Witness for the amended C4 theorem: a candidate with cosine 1 to the
single stored node merges and leaves the node count unchanged. -/
theorem consolidation_merge_rule_witness :
    (17 : ℚ) / 20 <
        cosineSimilarity ratSqrt [3 / 5, 4 / 5] witnessNodeC4.embedding ∧
      (consolidateCandidate ratSqrt 0 "new" witnessGraphC4 [3 / 5, 4 / 5]
          witnessEpC4).nodeCount = witnessGraphC4.nodeCount := by
  have hcos : cosineSimilarity ratSqrt [3 / 5, 4 / 5]
      witnessNodeC4.embedding = 1 := by
    norm_num [cosineSimilarity, dotProduct, magnitudeSq, ratSqrt_one,
      witnessNodeC4]
  refine ⟨by rw [hcos]; norm_num, ?_⟩
  exact (consolidation_merge_rule ratSqrt 0 "new" witnessGraphC4
    [3 / 5, 4 / 5] witnessEpC4 witnessNodeC4 (by decide) rfl
    (by rw [hcos]; norm_num) (by norm_num [witnessNodeC4])
    (by norm_num [witnessEpC4])).2.1

/-- Counterexample node for C4: unit embedding `[1,0,0,0,0]`. -/
def ceC4Node : GraphNode :=
  { id := "A", type := "episode", embedding := [1, 0, 0, 0, 0],
    salience := 1 / 2, created := none, lastAccessed := 0,
    accessCount := 0, data := emptyNodeData }

/-- Counterexample graph for C4. -/
def ceC4Graph : MemoryGraph :=
  ⟨[ceC4Node], []⟩

/-- Rational unit vector whose cosine with `[1,0,0,0,0]` is exactly
17/20 = 0.85: its squared coordinates sum to
(28900 + 11025 + 49 + 25 + 1)/40000 = 1. -/
def ceC4Emb : List ℚ :=
  [17 / 20, 21 / 40, 7 / 200, 1 / 40, 1 / 200]

/-- Counterexample candidate for C4. -/
def ceC4Ep : CandidateEpisode :=
  ⟨"cand", [], 1 / 2, 1 / 2, [], []⟩

/-- Counterexample to C4 as stated: a candidate whose cosine similarity
to the nearest node is exactly 0.85 is NOT merged — the code inserts a
new node (node count grows from 1 to 2), because the merge test is
`similarity > 0.85`, strict. -/
theorem consolidation_merge_at_boundary_counterexample :
    cosineSimilarity ratSqrt ceC4Emb ceC4Node.embedding = 17 / 20 ∧
      ceC4Graph.nodeCount = 1 ∧
      (consolidateCandidate ratSqrt 0 "new" ceC4Graph ceC4Emb
          ceC4Ep).nodeCount = 2 := by
  have hcos : cosineSimilarity ratSqrt ceC4Emb ceC4Node.embedding =
      17 / 20 := by
    norm_num [cosineSimilarity, dotProduct, magnitudeSq, ratSqrt_one,
      ceC4Emb, ceC4Node]
  refine ⟨hcos, rfl, ?_⟩
  have hpath : consolidateCandidate ratSqrt 0 "new" ceC4Graph ceC4Emb
      ceC4Ep = insertCandidate ratSqrt 0 "new" ceC4Graph ceC4Emb ceC4Ep := by
    unfold consolidateCandidate
    rw [if_pos (by decide),
      show ceC4Graph.findNearestNodes ratSqrt ceC4Emb 1 = [ceC4Node] from rfl]
    show (if (17 : ℚ) / 20 <
        cosineSimilarity ratSqrt ceC4Emb ceC4Node.embedding then _ else _) = _
    rw [if_neg (by rw [hcos]; exact lt_irrefl _)]
  rw [hpath]
  show (insertCandidate ratSqrt 0 "new" ceC4Graph ceC4Emb
      ceC4Ep).nodes.length = 2
  rw [insertCandidate_nodes]
  simp [MemoryGraph.addNode, ceC4Graph, ceC4Node, newEpisodeNode,
    List.find?]

/-! ## Durable store (storage/database.ts)

SQLite is modelled relationally: `episodes` and `raw_experiences` are
row lists in rowid (insertion) order, `episode_links` has primary key
`(from_id, to_id)` and enforced foreign keys into `episodes` (the
source turns `foreign_keys = ON`), and `self_model` is a singleton.
Serialisation (ISO timestamps, JSON embeddings) round-trips exactly at
millisecond/number granularity and is the identity in the model. -/

/-- Episode record of memory/types.ts (`deserializeEpisode` output,
links bundled). -/
structure Episode where
  id : String
  created : Int
  lastAccessed : Int
  accessCount : Nat
  summary : String
  embedding : List ℚ
  exemplars : List Exemplar
  before : List String
  after : List String
  gap : GapRecord
  links : List GraphLink
  salience : ℚ
  confidence : ℚ
  topics : List String
deriving DecidableEq, Repr

/-- Row of the `episodes` table (no links). -/
structure EpisodeRow where
  id : String
  created : Int
  lastAccessed : Int
  accessCount : Nat
  summary : String
  embedding : List ℚ
  exemplars : List Exemplar
  before : List String
  after : List String
  gap : GapRecord
  salience : ℚ
  confidence : ℚ
  topics : List String
deriving DecidableEq, Repr

/-- Row of the `episode_links` table. -/
structure LinkRow where
  fromId : String
  toId : String
  strength : ℚ
  type : String
deriving DecidableEq, Repr

/-- `self_model` singleton row; sub-records the consolidation engine
never touches are carried opaquely. -/
structure SelfModel where
  narrative : String
  values : List String
  tendencies : List String
  relationship : String
  strengths : List String
  limitations : List String
  currentFocus : Option String
  unresolvedThreads : List String
  anticipations : List String
deriving DecidableEq, Repr

/-- SQLite constraint failures surfaced by better-sqlite3. -/
inductive DBError
  | uniqueViolation
  | foreignKeyViolation
deriving DecidableEq, Repr

/-- The store state over the tables the verified components touch. -/
structure Database where
  rawExperiences : List RawExperience
  episodes : List EpisodeRow
  episodeLinks : List LinkRow
  selfModel : Option SelfModel
deriving Repr

namespace Database

/-- `getRawExperiences` with the optional `processed` filter. -/
def getRawExperiences (db : Database) (processedFilter : Option Bool) :
    List RawExperience :=
  match processedFilter with
  | none => db.rawExperiences
  | some b => db.rawExperiences.filter (fun r => r.processed = b)

/-- `markRawExperienceProcessed`: `UPDATE … SET processed = 1 WHERE
id = ?`. -/
def markRawExperienceProcessed (db : Database) (id : String) : Database :=
  let updated := db.rawExperiences.map
    (fun r => if r.id = id then { r with processed := true } else r)
  { db with rawExperiences := updated }

/-- Row written for an episode (columns of the INSERT). -/
def rowOfEpisode (ep : Episode) : EpisodeRow :=
  { id := ep.id, created := ep.created, lastAccessed := ep.lastAccessed,
    accessCount := ep.accessCount, summary := ep.summary,
    embedding := ep.embedding, exemplars := ep.exemplars,
    before := ep.before, after := ep.after, gap := ep.gap,
    salience := ep.salience, confidence := ep.confidence,
    topics := ep.topics }

/-- `upsertEpisode`: `ON CONFLICT(id)` updates every column except
`created`. -/
def conflictUpdateRow (ep : Episode) (row : EpisodeRow) : EpisodeRow :=
  { row with
    lastAccessed := ep.lastAccessed
    accessCount := ep.accessCount
    summary := ep.summary
    embedding := ep.embedding
    exemplars := ep.exemplars
    before := ep.before
    after := ep.after
    gap := ep.gap
    salience := ep.salience
    confidence := ep.confidence
    topics := ep.topics }

/-- Implementation of `upsertEpisode` over the row list. -/
def upsertEpisode (db : Database) (ep : Episode) : Database :=
  let updated :=
    if (db.episodes.find? (fun row => row.id = ep.id)).isSome then
      db.episodes.map
        (fun row => if row.id = ep.id then conflictUpdateRow ep row else row)
    else db.episodes ++ [rowOfEpisode ep]
  { db with episodes := updated }

/-- `deleteEpisodeLinks`: `DELETE FROM episode_links WHERE
from_id = ?`. -/
def deleteEpisodeLinks (db : Database) (fromId : String) : Database :=
  let kept := db.episodeLinks.filter (fun l => ¬ l.fromId = fromId)
  { db with episodeLinks := kept }

/-- `insertEpisodeLink`: plain INSERT, so a duplicate `(from_id, to_id)`
violates the primary key and a source or target absent from `episodes`
violates a foreign key. -/
def insertEpisodeLink (db : Database) (fromId toId : String)
    (strength : ℚ) (ty : String) : Except DBError Database :=
  if (db.episodeLinks.find?
      (fun l => l.fromId = fromId ∧ l.toId = toId)).isSome then
    .error .uniqueViolation
  else if ¬ db.episodes.any (fun r => r.id = fromId) then
    .error .foreignKeyViolation
  else if ¬ db.episodes.any (fun r => r.id = toId) then
    .error .foreignKeyViolation
  else
    .ok { db with episodeLinks := db.episodeLinks ++ [⟨fromId, toId, strength, ty⟩] }

/-- `getAllEpisodes`: every row, links re-attached per source in rowid
order. -/
def getAllEpisodes (db : Database) : List Episode :=
  db.episodes.map (fun row =>
    { id := row.id, created := row.created,
      lastAccessed := row.lastAccessed, accessCount := row.accessCount,
      summary := row.summary, embedding := row.embedding,
      exemplars := row.exemplars, before := row.before,
      after := row.after, gap := row.gap,
      links := (db.episodeLinks.filter (fun l => l.fromId = row.id)).map
        (fun l => ⟨l.toId, l.strength, l.type⟩),
      salience := row.salience, confidence := row.confidence,
      topics := row.topics })

/-- `loadSelfModel`. -/
def loadSelfModel (db : Database) : Option SelfModel :=
  db.selfModel

/-- `saveSelfModel` (singleton upsert). -/
def saveSelfModel (db : Database) (m : SelfModel) : Database :=
  { db with selfModel := some m }

end Database

/-! ## Hydrator (memory/hydrator.ts) -/

/-- Graph node built by `hydrateGraph` from an episode: `created` is not
set by the source object literal, and the data payload carries no
`patterns` field. -/
def hydratedNode (ep : Episode) : GraphNode :=
  { id := ep.id, type := "episode", embedding := ep.embedding,
    salience := ep.salience, created := none,
    lastAccessed := ep.lastAccessed, accessCount := ep.accessCount,
    data :=
      { summary := ep.summary, topics := ep.topics,
        confidence := ep.confidence, exemplars := ep.exemplars,
        patterns := [], before := ep.before, after := ep.after,
        gap := ep.gap } }

/-- `hydrateGraph`: insert a node per episode, then add its persisted
links. -/
def hydrateGraph (db : Database) : MemoryGraph :=
  db.getAllEpisodes.foldl
    (fun g ep =>
      ep.links.foldl
        (fun h l => h.addLink ep.id l.targetId l.strength l.type)
        (g.addNode (hydratedNode ep)))
    ⟨[], []⟩

/-- Episode written by `persistGraph` for a node: `created` falls back
to `lastAccessed`, links are persisted separately. -/
def persistEpisodeOf (n : GraphNode) : Episode :=
  { id := n.id, created := n.lastAccessed, lastAccessed := n.lastAccessed,
    accessCount := n.accessCount, summary := n.data.summary,
    embedding := n.embedding, exemplars := n.data.exemplars,
    before := n.data.before, after := n.data.after, gap := n.data.gap,
    links := [], salience := n.salience, confidence := n.data.confidence,
    topics := n.data.topics }

/-- `persistGraph`: first pass upserts every node's episode row; second
pass deletes each source's stored links and re-inserts the in-memory
ones.  A constraint violation aborts with the SQLite error. -/
def persistGraph (g : MemoryGraph) (db : Database) :
    Except DBError Database :=
  let db1 := g.getAllNodes.foldl
    (fun db n => db.upsertEpisode (persistEpisodeOf n)) db
  g.getAllNodes.foldlM
    (fun db n =>
      (g.getLinks n.id).foldlM
        (fun db l => db.insertEpisodeLink n.id l.targetId l.strength l.type)
        (db.deleteEpisodeLinks n.id))
    db1

/-! ### Round-trip lemmas: first pass (episode upserts) -/

/-- Link row written by the second pass of `persistGraph` for one
in-memory link of source `n`. -/
def linkRowsOf (g : MemoryGraph) (n : GraphNode) : List LinkRow :=
  (g.getLinks n.id).map (fun l => ⟨n.id, l.targetId, l.strength, l.type⟩)

/-- First pass of `persistGraph`. -/
def persistPass1 (g : MemoryGraph) (db : Database) : Database :=
  g.getAllNodes.foldl (fun db n => db.upsertEpisode (persistEpisodeOf n)) db

theorem persistPass1_raw (g : MemoryGraph) :
    ∀ db : Database, (persistPass1 g db).rawExperiences =
      db.rawExperiences := by
  unfold persistPass1 MemoryGraph.getAllNodes
  induction g.nodes with
  | nil => intro db; rfl
  | cons n rest ih =>
      intro db
      rw [List.foldl_cons]
      exact ih _

theorem persistPass1_self (g : MemoryGraph) :
    ∀ db : Database, (persistPass1 g db).selfModel = db.selfModel := by
  unfold persistPass1 MemoryGraph.getAllNodes
  induction g.nodes with
  | nil => intro db; rfl
  | cons n rest ih =>
      intro db
      rw [List.foldl_cons]
      exact ih _

theorem persistPass1_links (g : MemoryGraph) :
    ∀ db : Database, (persistPass1 g db).episodeLinks =
      db.episodeLinks := by
  unfold persistPass1 MemoryGraph.getAllNodes
  induction g.nodes with
  | nil => intro db; rfl
  | cons n rest ih =>
      intro db
      rw [List.foldl_cons]
      exact ih _

theorem upsertEpisode_fresh {db : Database} {ep : Episode}
    (h : ∀ r ∈ db.episodes, r.id ≠ ep.id) :
    (db.upsertEpisode ep).episodes =
      db.episodes ++ [Database.rowOfEpisode ep] := by
  unfold Database.upsertEpisode
  have hfind : (db.episodes.find? (fun row => row.id = ep.id)).isSome =
      false := by
    rw [Bool.eq_false_iff]
    intro hc
    obtain ⟨r, hr, hp⟩ := List.find?_isSome.mp hc
    exact h r hr (by simpa using hp)
  rw [if_neg (by rw [hfind]; simp)]

/-- The first pass on rows all of whose node ids are fresh appends the
nodes' rows in order. -/
theorem persistPass1_fresh (g : MemoryGraph) :
    ∀ (ns : List GraphNode) (db : Database),
      (∀ n ∈ ns, ∀ r ∈ db.episodes, r.id ≠ n.id) →
      (ns.map (·.id)).Nodup →
      (ns.foldl (fun db n => db.upsertEpisode (persistEpisodeOf n))
          db).episodes =
        db.episodes ++
          ns.map (fun n => Database.rowOfEpisode (persistEpisodeOf n)) := by
  intro ns
  induction ns with
  | nil => intro db _ _; simp
  | cons n rest ih =>
      intro db hfresh hnodup
      rw [List.foldl_cons]
      have hner : ∀ r ∈ db.episodes, r.id ≠ (persistEpisodeOf n).id :=
        fun r hr => hfresh n (List.mem_cons_self _ _) r hr
      have hepi := upsertEpisode_fresh hner
      have hrest : ∀ m ∈ rest, ∀ r ∈
          (db.upsertEpisode (persistEpisodeOf n)).episodes, r.id ≠ m.id := by
        intro m hm r hr
        rw [hepi] at hr
        rcases List.mem_append.mp hr with h | h
        · exact hfresh m (List.mem_cons_of_mem _ hm) r h
        · have : r = Database.rowOfEpisode (persistEpisodeOf n) :=
            List.mem_singleton.mp h
          rw [this]
          show n.id ≠ m.id
          have hcons : (n.id :: rest.map (·.id)).Nodup := hnodup
          intro hc
          exact (List.nodup_cons.mp hcons).1 (hc ▸ List.mem_map.mpr ⟨m, hm, rfl⟩)
      rw [ih _ hrest (by
        have hcons : (n.id :: rest.map (·.id)).Nodup := hnodup
        exact (List.nodup_cons.mp hcons).2), hepi]
      simp

/-! ### Round-trip lemmas: second pass (link rewrite) -/

/-- State with a replaced `episode_links` table. -/
def withLinks (db : Database) (L : List LinkRow) : Database :=
  { db with episodeLinks := L }

theorem insertLinks_ok (fid : String) :
    ∀ (ls : List GraphLink) (db : Database),
      ((ls.map (·.targetId)).Nodup) →
      (∀ r ∈ db.episodeLinks, r.fromId = fid →
        r.toId ∉ ls.map (·.targetId)) →
      (db.episodes.any (fun r => r.id = fid) = true) →
      (∀ l ∈ ls, db.episodes.any (fun r => r.id = l.targetId) = true) →
      (ls.foldlM
          (fun db (l : GraphLink) =>
            db.insertEpisodeLink fid l.targetId l.strength l.type)
          db) =
        .ok (withLinks db (db.episodeLinks ++
          ls.map (fun l => ⟨fid, l.targetId, l.strength, l.type⟩))) := by
  intro ls
  induction ls with
  | nil =>
      intro db _ _ _ _
      show Except.ok db = _
      unfold withLinks
      rw [List.map_nil, List.append_nil]
  | cons l ls ih =>
      intro db hnodup hold hfid htgt
      rw [List.foldlM_cons]
      have hins : db.insertEpisodeLink fid l.targetId l.strength l.type =
          .ok (withLinks db (db.episodeLinks ++
            [⟨fid, l.targetId, l.strength, l.type⟩])) := by
        unfold Database.insertEpisodeLink withLinks
        have hpk : (db.episodeLinks.find?
            (fun r => r.fromId = fid ∧ r.toId = l.targetId)).isSome =
              false := by
          rw [Bool.eq_false_iff]
          intro hc
          obtain ⟨r, hr, hp⟩ := List.find?_isSome.mp hc
          have hp' : r.fromId = fid ∧ r.toId = l.targetId := by
            simpa using hp
          exact hold r hr hp'.1
            (hp'.2 ▸ List.mem_map.mpr ⟨l, List.mem_cons_self _ _, rfl⟩)
        rw [if_neg (by rw [hpk]; simp), if_neg (by rw [hfid]; simp),
          if_neg (by rw [htgt l (List.mem_cons_self _ _)]; simp)]
      rw [hins]
      have hcons : (l.targetId :: ls.map (·.targetId)).Nodup := hnodup
      have hih := ih (withLinks db (db.episodeLinks ++
          [⟨fid, l.targetId, l.strength, l.type⟩]))
        (List.nodup_cons.mp hcons).2
        (by
          intro r hr hrf
          rcases List.mem_append.mp hr with h | h
          · intro hmem
            exact hold r h hrf (List.mem_cons_of_mem _ hmem)
          · have : r = (⟨fid, l.targetId, l.strength, l.type⟩ : LinkRow) :=
              List.mem_singleton.mp h
            rw [this]
            exact (List.nodup_cons.mp hcons).1)
        hfid
        (fun x hx => htgt x (List.mem_cons_of_mem _ hx))
      show (ls.foldlM
          (fun db (l : GraphLink) =>
            db.insertEpisodeLink fid l.targetId l.strength l.type)
          (withLinks db (db.episodeLinks ++
            [⟨fid, l.targetId, l.strength, l.type⟩]))) = _
      rw [hih]
      unfold withLinks
      rw [List.map_cons]
      simp

theorem pass2_ok (g : MemoryGraph) :
    ∀ (ns : List GraphNode) (db : Database),
      ((ns.map (·.id)).Nodup) →
      (∀ n ∈ ns, ((g.getLinks n.id).map (·.targetId)).Nodup) →
      (∀ n ∈ ns, db.episodes.any (fun r => r.id = n.id) = true) →
      (∀ n ∈ ns, ∀ l ∈ g.getLinks n.id,
        db.episodes.any (fun r => r.id = l.targetId) = true) →
      (ns.foldlM
          (fun db (n : GraphNode) =>
            (g.getLinks n.id).foldlM
              (fun db (l : GraphLink) =>
                db.insertEpisodeLink n.id l.targetId l.strength l.type)
              (db.deleteEpisodeLinks n.id))
          db) =
        .ok (withLinks db
          ((db.episodeLinks.filter
              (fun r => ns.all (fun n => ¬ r.fromId = n.id))) ++
            ns.flatMap (linkRowsOf g))) := by
  intro ns
  induction ns with
  | nil =>
      intro db _ _ _ _
      show Except.ok db = _
      unfold withLinks
      rw [List.flatMap_nil, List.append_nil,
        List.filter_eq_self.mpr (fun r _ => by simp)]
  | cons n rest ih =>
      intro db hnodup hltnodup hfid htgt
      rw [List.foldlM_cons]
      have hstep : ((g.getLinks n.id).foldlM
          (fun db (l : GraphLink) =>
            db.insertEpisodeLink n.id l.targetId l.strength l.type)
          (db.deleteEpisodeLinks n.id)) =
        .ok (withLinks db
          ((db.episodeLinks.filter (fun r => ¬ r.fromId = n.id)) ++
            linkRowsOf g n)) := by
        have hdel : db.deleteEpisodeLinks n.id =
            withLinks db
              (db.episodeLinks.filter (fun r => ¬ r.fromId = n.id)) := rfl
        rw [hdel]
        have := insertLinks_ok n.id (g.getLinks n.id)
          (withLinks db
            (db.episodeLinks.filter (fun r => ¬ r.fromId = n.id)))
          (hltnodup n (List.mem_cons_self _ _))
          (by
            intro r hr hrf
            have hr' := List.mem_filter.mp hr
            exact absurd hrf (by simpa using hr'.2))
          (hfid n (List.mem_cons_self _ _))
          (fun l hl => htgt n (List.mem_cons_self _ _) l hl)
        rw [this]
        rfl
      rw [hstep]
      have hcons : (n.id :: rest.map (·.id)).Nodup := hnodup
      have hih := ih (withLinks db
          ((db.episodeLinks.filter (fun r => ¬ r.fromId = n.id)) ++
            linkRowsOf g n))
        (List.nodup_cons.mp hcons).2
        (fun m hm => hltnodup m (List.mem_cons_of_mem _ hm))
        (fun m hm => hfid m (List.mem_cons_of_mem _ hm))
        (fun m hm l hl => htgt m (List.mem_cons_of_mem _ hm) l hl)
      show (rest.foldlM
          (fun db (n : GraphNode) =>
            (g.getLinks n.id).foldlM
              (fun db (l : GraphLink) =>
                db.insertEpisodeLink n.id l.targetId l.strength l.type)
              (db.deleteEpisodeLinks n.id))
          (withLinks db
            ((db.episodeLinks.filter (fun r => ¬ r.fromId = n.id)) ++
              linkRowsOf g n))) = _
      rw [hih]
      refine congrArg Except.ok ?_
      have hgrp : (linkRowsOf g n).filter
          (fun r => rest.all (fun m => ¬ r.fromId = m.id)) =
            linkRowsOf g n := by
        apply List.filter_eq_self.mpr
        intro r hr
        obtain ⟨l, _, hlr⟩ := List.mem_map.mp hr
        rw [← hlr]
        simp only [List.all_eq_true, decide_eq_true_eq]
        intro m hm
        show ¬ n.id = m.id
        intro hc
        exact (List.nodup_cons.mp hcons).1
          (hc ▸ List.mem_map.mpr ⟨m, hm, rfl⟩)
      have hlinks : ((db.episodeLinks.filter (fun r => ¬ r.fromId = n.id) ++
          linkRowsOf g n).filter
            (fun r => rest.all (fun m => ¬ r.fromId = m.id))) ++
          rest.flatMap (linkRowsOf g) =
          (db.episodeLinks.filter
              (fun r => (n :: rest).all (fun m => ¬ r.fromId = m.id))) ++
            (n :: rest).flatMap (linkRowsOf g) := by
        rw [List.filter_append, hgrp, List.filter_filter,
          List.flatMap_cons, ← List.append_assoc]
        congr 2
        apply List.filter_congr
        intro r _
        rw [List.all_cons, Bool.and_comm]
      exact congrArg (withLinks db) hlinks

/-! ### Round-trip characterisation -/

/-- A fresh store. -/
def emptyDB : Database :=
  ⟨[], [], [], none⟩

/-- The episode that comes back for a node after a persist/hydrate
round trip. -/
def roundTripEpisode (g : MemoryGraph) (n : GraphNode) : Episode :=
  { id := n.id, created := n.lastAccessed, lastAccessed := n.lastAccessed,
    accessCount := n.accessCount, summary := n.data.summary,
    embedding := n.embedding, exemplars := n.data.exemplars,
    before := n.data.before, after := n.data.after, gap := n.data.gap,
    links := g.getLinks n.id, salience := n.salience,
    confidence := n.data.confidence, topics := n.data.topics }

theorem persistGraph_empty (g : MemoryGraph)
    (hids : (g.nodes.map (·.id)).Nodup)
    (hdup : ∀ n ∈ g.nodes, ((g.getLinks n.id).map (·.targetId)).Nodup)
    (htgt : ∀ n ∈ g.nodes, ∀ l ∈ g.getLinks n.id,
      l.targetId ∈ g.nodes.map (·.id)) :
    persistGraph g emptyDB =
      .ok ⟨[],
        g.nodes.map (fun n => Database.rowOfEpisode (persistEpisodeOf n)),
        g.nodes.flatMap (linkRowsOf g), none⟩ := by
  have hdb1 : persistPass1 g emptyDB =
      ⟨[], g.nodes.map (fun n => Database.rowOfEpisode (persistEpisodeOf n)),
        [], none⟩ := by
    have hrows := persistPass1_fresh g g.nodes emptyDB
      (fun n _ r hr => absurd hr (by simp [emptyDB])) hids
    have hraw := persistPass1_raw g emptyDB
    have hlinks := persistPass1_links g emptyDB
    have hself := persistPass1_self g emptyDB
    have heta : persistPass1 g emptyDB = Database.mk
        (persistPass1 g emptyDB).rawExperiences
        (persistPass1 g emptyDB).episodes
        (persistPass1 g emptyDB).episodeLinks
        (persistPass1 g emptyDB).selfModel := rfl
    rw [heta, hraw, hlinks, hself]
    show Database.mk ([] : List RawExperience) _ ([] : List LinkRow)
      (none : Option SelfModel) = _
    rw [show (g.nodes.foldl
        (fun db n => db.upsertEpisode (persistEpisodeOf n)) emptyDB).episodes
      = (persistPass1 g emptyDB).episodes from rfl] at hrows
    rw [hrows]
    rfl
  have hfid : ∀ n ∈ g.nodes,
      ((persistPass1 g emptyDB).episodes.any
        (fun r => r.id = n.id)) = true := by
    intro n hn
    rw [hdb1]
    apply List.any_eq_true.mpr
    exact ⟨Database.rowOfEpisode (persistEpisodeOf n),
      List.mem_map.mpr ⟨n, hn, rfl⟩, by simp [Database.rowOfEpisode,
        persistEpisodeOf]⟩
  have htgt' : ∀ n ∈ g.nodes, ∀ l ∈ g.getLinks n.id,
      ((persistPass1 g emptyDB).episodes.any
        (fun r => r.id = l.targetId)) = true := by
    intro n hn l hl
    obtain ⟨m, hm, hmid⟩ := List.mem_map.mp (htgt n hn l hl)
    rw [hdb1]
    apply List.any_eq_true.mpr
    exact ⟨Database.rowOfEpisode (persistEpisodeOf m),
      List.mem_map.mpr ⟨m, hm, rfl⟩, by
        simp [Database.rowOfEpisode, persistEpisodeOf, hmid]⟩
  have hmain : persistGraph g emptyDB =
      (g.nodes.foldlM
        (fun db (n : GraphNode) =>
          (g.getLinks n.id).foldlM
            (fun db (l : GraphLink) =>
              db.insertEpisodeLink n.id l.targetId l.strength l.type)
            (db.deleteEpisodeLinks n.id))
        (persistPass1 g emptyDB)) := rfl
  rw [hmain, pass2_ok g g.nodes (persistPass1 g emptyDB) hids hdup hfid htgt']
  rw [hdb1]
  unfold withLinks
  rfl

/-! ### Hydration characterisation -/

theorem alistGet?_none_of_not_mem {β : Type} {L : List (String × β)}
    {fid : String} (h : fid ∉ alistKeys L) : alistGet? L fid = none := by
  induction L with
  | nil => rfl
  | cons p L ih =>
      have hne : p.1 ≠ fid := by
        intro hc
        exact h (by simp [alistKeys, hc])
      unfold alistGet?
      rw [List.find?_cons_of_neg _ (by simpa using hne)]
      exact ih (fun hc => h (by simp [alistKeys] at hc ⊢; exact Or.inr hc))

theorem alistGet?_append_key {β : Type} {L : List (String × β)}
    {fid : String} (v : β) (h : fid ∉ alistKeys L) :
    alistGet? (L ++ [(fid, v)]) fid = some v := by
  induction L with
  | nil =>
      unfold alistGet?
      rw [List.nil_append, List.find?_cons_of_pos _ (by simp)]
      rfl
  | cons p L ih =>
      have hne : p.1 ≠ fid := by
        intro hc
        exact h (by simp [alistKeys, hc])
      unfold alistGet?
      rw [List.cons_append, List.find?_cons_of_neg _ (by simpa using hne)]
      exact ih (fun hc => h (by simp [alistKeys] at hc ⊢; exact Or.inr hc))

theorem alistSet_append_key {β : Type} {L : List (String × β)}
    {fid : String} (acc v : β) (h : fid ∉ alistKeys L) :
    alistSet (L ++ [(fid, acc)]) fid v = L ++ [(fid, v)] := by
  induction L with
  | nil =>
      unfold alistSet
      rw [List.nil_append,
        if_pos (by rw [List.find?_cons_of_pos _ (by simp)]; rfl)]
      simp
  | cons p L ih =>
      obtain ⟨k, w⟩ := p
      have hne : k ≠ fid := by
        intro hc
        exact h (by simp [alistKeys, hc])
      have htail : fid ∉ alistKeys L :=
        fun hc => h (by simp [alistKeys] at hc ⊢; exact Or.inr hc)
      have hfound : ((L ++ [(fid, acc)]).find?
          (fun p => p.1 = fid)).isSome = true :=
        List.find?_isSome.mpr ⟨(fid, acc), by simp, by simp⟩
      unfold alistSet
      rw [List.cons_append,
        List.find?_cons_of_neg _ (by simpa using hne), if_pos hfound,
        List.map_cons, if_neg (by simpa using hne)]
      have hrest := ih htail
      unfold alistSet at hrest
      rw [if_pos hfound] at hrest
      rw [hrest]
      exact (List.cons_append _ _ _).symm

theorem alistSet_append_fresh {β : Type} {L : List (String × β)}
    {fid : String} (v : β) (h : fid ∉ alistKeys L) :
    alistSet L fid v = L ++ [(fid, v)] := by
  unfold alistSet
  rw [if_neg (by
    intro hc
    obtain ⟨p, hp, hpk⟩ := List.find?_isSome.mp hc
    exact h (List.mem_map.mpr ⟨p, hp, by simpa using hpk⟩))]

theorem foldl_addLink_acc (fid : String) :
    ∀ (ls : List GraphLink) (acc : List GraphLink) (N : List GraphNode)
      (L : List (String × List GraphLink)), fid ∉ alistKeys L →
      (ls.foldl
          (fun (h : MemoryGraph) (l : GraphLink) =>
            h.addLink fid l.targetId l.strength l.type)
          ⟨N, L ++ [(fid, acc)]⟩) = ⟨N, L ++ [(fid, acc ++ ls)]⟩ := by
  intro ls
  induction ls with
  | nil =>
      intro acc N L _
      rw [List.foldl_nil, List.append_nil]
  | cons l ls ih =>
      intro acc N L hL
      rw [List.foldl_cons]
      have hGL : (MemoryGraph.mk N (L ++ [(fid, acc)])).getLinks fid
          = acc := by
        show (alistGet? (L ++ [(fid, acc)]) fid).getD [] = acc
        rw [alistGet?_append_key acc hL]
        rfl
      have hstep : (MemoryGraph.addLink ⟨N, L ++ [(fid, acc)]⟩ fid
          l.targetId l.strength l.type) = ⟨N, L ++ [(fid, acc ++ [l])]⟩ := by
        show MemoryGraph.mk N (alistSet (L ++ [(fid, acc)]) fid
            ((MemoryGraph.mk N (L ++ [(fid, acc)])).getLinks fid
              ++ [⟨l.targetId, l.strength, l.type⟩]))
          = MemoryGraph.mk N (L ++ [(fid, acc ++ [l])])
        rw [hGL, alistSet_append_key acc _ hL]
      rw [hstep, ih (acc ++ [l]) N L hL]
      simp

theorem foldl_addLink_fresh (fid : String) (ls : List GraphLink)
    (N : List GraphNode) (L : List (String × List GraphLink))
    (hL : fid ∉ alistKeys L) :
    (ls.foldl
        (fun (h : MemoryGraph) (l : GraphLink) =>
          h.addLink fid l.targetId l.strength l.type)
        ⟨N, L⟩) = ⟨N, if ls = [] then L else L ++ [(fid, ls)]⟩ := by
  cases ls with
  | nil => rw [List.foldl_nil, if_pos rfl]
  | cons l ls =>
      rw [List.foldl_cons, if_neg (by simp)]
      have hGL0 : (MemoryGraph.mk N L).getLinks fid = [] := by
        show (alistGet? L fid).getD [] = []
        rw [alistGet?_none_of_not_mem hL]
        rfl
      have hstep : (MemoryGraph.addLink ⟨N, L⟩ fid
          l.targetId l.strength l.type) = ⟨N, L ++ [(fid, [l])]⟩ := by
        show MemoryGraph.mk N (alistSet L fid
            ((MemoryGraph.mk N L).getLinks fid
              ++ [⟨l.targetId, l.strength, l.type⟩]))
          = MemoryGraph.mk N (L ++ [(fid, [l])])
        rw [hGL0, alistSet_append_fresh _ hL]
        simp
      rw [hstep, foldl_addLink_acc fid ls [l] N L hL]
      simp

/-- Folding `hydrateGraph`'s per-episode step over episodes with fresh,
pairwise-distinct ids appends the hydrated nodes in order and one link
entry per episode with a non-empty link list. -/
theorem hydrateFold :
    ∀ (eps : List Episode) (N : List GraphNode)
      (L : List (String × List GraphLink)),
      ((eps.map (·.id)).Nodup) →
      (∀ ep ∈ eps, ep.id ∉ N.map (·.id)) →
      (∀ ep ∈ eps, ep.id ∉ alistKeys L) →
      (eps.foldl
          (fun (g : MemoryGraph) ep =>
            ep.links.foldl
              (fun (h : MemoryGraph) l =>
                h.addLink ep.id l.targetId l.strength l.type)
              (g.addNode (hydratedNode ep)))
          ⟨N, L⟩) =
        ⟨N ++ eps.map hydratedNode,
          L ++ (eps.filter (fun ep => ¬ ep.links = [])).map
            (fun ep => (ep.id, ep.links))⟩ := by
  intro eps
  induction eps with
  | nil =>
      intro N L _ _ _
      simp
  | cons ep rest ih =>
      intro N L hnodup hN hL
      rw [List.foldl_cons]
      have hfind : (N.find?
          (fun m => m.id = (hydratedNode ep).id)).isSome = false := by
        rw [Bool.eq_false_iff]
        intro hc
        obtain ⟨m, hm, hp⟩ := List.find?_isSome.mp hc
        have hp' : m.id = ep.id := by simpa [hydratedNode] using hp
        exact hN ep (List.mem_cons_self _ _)
          (List.mem_map.mpr ⟨m, hm, hp'⟩)
      have haddN : (MemoryGraph.mk N L).addNode (hydratedNode ep) =
          ⟨N ++ [hydratedNode ep], L⟩ := by
        unfold MemoryGraph.addNode
        rw [if_neg (by rw [hfind]; simp)]
      rw [haddN,
        foldl_addLink_fresh ep.id ep.links (N ++ [hydratedNode ep]) L
          (hL ep (List.mem_cons_self _ _))]
      have hcons : (ep.id :: rest.map (·.id)).Nodup := hnodup
      have hih := ih (N ++ [hydratedNode ep])
        (if ep.links = [] then L else L ++ [(ep.id, ep.links)])
        (List.nodup_cons.mp hcons).2
        (by
          intro e he
          rw [List.map_append]
          intro hc
          rcases List.mem_append.mp hc with h | h
          · exact hN e (List.mem_cons_of_mem _ he) h
          · have hid : e.id = (hydratedNode ep).id := by simpa using h
            have hid' : e.id = ep.id := hid
            exact (List.nodup_cons.mp hcons).1
              (hid' ▸ List.mem_map.mpr ⟨e, he, rfl⟩))
        (by
          intro e he
          by_cases hls : ep.links = []
          · rw [if_pos hls]
            exact hL e (List.mem_cons_of_mem _ he)
          · rw [if_neg hls]
            unfold alistKeys
            rw [List.map_append]
            intro hc
            rcases List.mem_append.mp hc with h | h
            · exact hL e (List.mem_cons_of_mem _ he) h
            · have hid : e.id = ep.id := by simpa using h
              exact (List.nodup_cons.mp hcons).1
                (hid ▸ List.mem_map.mpr ⟨e, he, rfl⟩))
      rw [hih]
      by_cases hls : ep.links = []
      · rw [if_pos hls]
        have hfilt : (ep :: rest).filter (fun e => ¬ e.links = []) =
            rest.filter (fun e => ¬ e.links = []) := by
          rw [List.filter_cons, if_neg (by simp [hls])]
        rw [hfilt]
        simp
      · rw [if_neg hls]
        have hfilt : (ep :: rest).filter (fun e => ¬ e.links = []) =
            ep :: rest.filter (fun e => ¬ e.links = []) := by
          rw [List.filter_cons, if_pos (by simp [hls])]
        rw [hfilt]
        simp

/-- Filtering the concatenated link rows by one node's id recovers
exactly that node's group when node ids are pairwise distinct. -/
theorem flatRows_filter (g : MemoryGraph) :
    ∀ (ns : List GraphNode), ((ns.map (·.id)).Nodup) →
      ∀ m ∈ ns, (ns.flatMap (linkRowsOf g)).filter
        (fun r => r.fromId = m.id) = linkRowsOf g m := by
  intro ns
  induction ns with
  | nil =>
      intro _ m hm
      cases hm
  | cons k rest ih =>
      intro hnodup m hm
      have hcons : (k.id :: rest.map (·.id)).Nodup := hnodup
      rw [List.flatMap_cons, List.filter_append]
      have hgroup_from : ∀ r ∈ linkRowsOf g k, r.fromId = k.id := by
        intro r hr
        obtain ⟨l, _, hlr⟩ := List.mem_map.mp hr
        rw [← hlr]
      have hrest_from : ∀ r ∈ rest.flatMap (linkRowsOf g),
          ∃ m' ∈ rest, r.fromId = m'.id := by
        intro r hr
        obtain ⟨m', hm', hrm⟩ := List.mem_flatMap.mp hr
        obtain ⟨l, _, hlr⟩ := List.mem_map.mp hrm
        exact ⟨m', hm', by rw [← hlr]⟩
      rcases List.mem_cons.mp hm with h | h
      · subst h
        rw [List.filter_eq_self.mpr
          (fun r hr => by simp [hgroup_from r hr])]
        rw [List.filter_eq_nil_iff.mpr (fun r hr => by
          obtain ⟨m', hm', hrm⟩ := hrest_from r hr
          simp only [decide_eq_true_eq]
          rw [hrm]
          intro hc
          exact (List.nodup_cons.mp hcons).1
            (hc ▸ List.mem_map.mpr ⟨m', hm', rfl⟩))]
        rw [List.append_nil]
      · have hne : ¬ k.id = m.id := by
          intro hc
          exact (List.nodup_cons.mp hcons).1
            (hc ▸ List.mem_map.mpr ⟨m, h, rfl⟩)
        rw [List.filter_eq_nil_iff.mpr (fun r hr => by
          simp only [decide_eq_true_eq]
          rw [hgroup_from r hr]
          exact hne)]
        rw [List.nil_append]
        exact ih (List.nodup_cons.mp hcons).2 m h

/-- `getAllEpisodes` on the store `persistGraph` writes from an empty
database returns exactly the round-trip episode of every node, in node
order. -/
theorem getAllEpisodes_round (g : MemoryGraph)
    (hids : (g.nodes.map (·.id)).Nodup) :
    Database.getAllEpisodes
        ⟨[],
          g.nodes.map (fun n => Database.rowOfEpisode (persistEpisodeOf n)),
          g.nodes.flatMap (linkRowsOf g), none⟩ =
      g.nodes.map (roundTripEpisode g) := by
  unfold Database.getAllEpisodes
  rw [List.map_map]
  apply List.map_congr_left
  intro n hn
  simp only [Function.comp]
  have hlinks : ((g.nodes.flatMap (linkRowsOf g)).filter
      (fun l => l.fromId =
        (Database.rowOfEpisode (persistEpisodeOf n)).id)).map
      (fun l => (⟨l.toId, l.strength, l.type⟩ : GraphLink)) =
        g.getLinks n.id := by
    rw [show (fun (l : LinkRow) => decide (l.fromId =
        (Database.rowOfEpisode (persistEpisodeOf n)).id)) =
      (fun (l : LinkRow) => decide (l.fromId = n.id)) from rfl]
    rw [flatRows_filter g g.nodes hids n hn]
    unfold linkRowsOf
    rw [List.map_map]
    rw [show ((fun (l : LinkRow) => (⟨l.toId, l.strength, l.type⟩ :
        GraphLink)) ∘ (fun (l : GraphLink) =>
          (⟨n.id, l.targetId, l.strength, l.type⟩ : LinkRow))) = id from rfl]
    exact List.map_id _
  rw [hlinks]
  rfl

/-- Closed form of `hydrateGraph` on the freshly persisted store. -/
theorem hydrateGraph_round (g : MemoryGraph)
    (hids : (g.nodes.map (·.id)).Nodup) :
    hydrateGraph
        ⟨[],
          g.nodes.map (fun n => Database.rowOfEpisode (persistEpisodeOf n)),
          g.nodes.flatMap (linkRowsOf g), none⟩ =
      ⟨g.nodes.map (fun n => hydratedNode (roundTripEpisode g n)),
        (g.nodes.filter (fun n => ¬ g.getLinks n.id = [])).map
          (fun n => (n.id, g.getLinks n.id))⟩ := by
  unfold hydrateGraph
  rw [getAllEpisodes_round g hids]
  have hcast : (g.nodes.map (roundTripEpisode g)).map (·.id) =
      g.nodes.map (·.id) := by
    rw [List.map_map]
    rfl
  rw [hydrateFold (g.nodes.map (roundTripEpisode g)) [] []
    (hcast.symm ▸ hids)
    (by intro ep _; simp)
    (by intro ep _; simp [alistKeys])]
  congr 1
  · rw [List.nil_append, List.map_map]
    rfl
  · rw [List.nil_append, List.filter_map, List.map_map]
    rfl

theorem alistGet?_filterMap_absent (v : GraphNode → List GraphLink)
    (P : GraphNode → Bool) (ns : List GraphNode) (fid : String)
    (h : fid ∉ ns.map (·.id)) :
    alistGet? ((ns.filter P).map (fun m => (m.id, v m))) fid = none := by
  apply alistGet?_none_of_not_mem
  intro hc
  unfold alistKeys at hc
  rw [List.map_map] at hc
  obtain ⟨m, hm, hmid⟩ := List.mem_map.mp hc
  exact h (List.mem_map.mpr ⟨m, (List.mem_filter.mp hm).1, hmid⟩)

theorem alistGet?_filterMap_filtered (v : GraphNode → List GraphLink)
    (P : GraphNode → Bool) (ns : List GraphNode)
    (hnodup : (ns.map (·.id)).Nodup) (n : GraphNode) (hn : n ∈ ns)
    (hP : P n = false) :
    alistGet? ((ns.filter P).map (fun m => (m.id, v m))) n.id = none := by
  apply alistGet?_none_of_not_mem
  intro hc
  unfold alistKeys at hc
  rw [List.map_map] at hc
  obtain ⟨m, hm, hmid⟩ := List.mem_map.mp hc
  have hmf := List.mem_filter.mp hm
  have hmn : m = n :=
    List.inj_on_of_nodup_map hnodup hmf.1 hn hmid
  rw [hmn, hP] at hmf
  cases hmf.2

theorem alistGet?_filterMap_present (v : GraphNode → List GraphLink)
    (P : GraphNode → Bool) :
    ∀ (ns : List GraphNode), ((ns.map (·.id)).Nodup) →
      ∀ n ∈ ns, P n = true →
      alistGet? ((ns.filter P).map (fun m => (m.id, v m))) n.id =
        some (v n) := by
  intro ns
  induction ns with
  | nil =>
      intro _ n hn
      cases hn
  | cons k rest ih =>
      intro hnodup n hn hP
      have hcons : (k.id :: rest.map (·.id)).Nodup := hnodup
      rcases List.mem_cons.mp hn with h | h
      · subst h
        rw [List.filter_cons, if_pos hP, List.map_cons]
        unfold alistGet?
        rw [List.find?_cons_of_pos _ (by simp)]
        rfl
      · have hne : ¬ k.id = n.id := by
          intro hc
          exact (List.nodup_cons.mp hcons).1
            (hc ▸ List.mem_map.mpr ⟨n, h, rfl⟩)
        by_cases hPk : P k = true
        · rw [List.filter_cons, if_pos hPk, List.map_cons]
          unfold alistGet?
          rw [List.find?_cons_of_neg _ (by simpa using hne)]
          exact ih (List.nodup_cons.mp hcons).2 n h hP
        · rw [List.filter_cons,
            if_neg (by rw [Bool.eq_false_iff.mpr hPk]; simp)]
          exact ih (List.nodup_cons.mp hcons).2 n h hP

/-- **C3.** Hydration round-trip: persisting a graph with pairwise
distinct node ids, duplicate-free per-source target lists, link targets
that are existing nodes and link-table keys that are node ids into an
empty store succeeds, and hydrating the resulting store yields a graph
with the same node ids in the same order, the same embeddings, salience,
last-accessed and access-count values, and the same outgoing links for
every id. -/
theorem hydrate_persist_roundtrip (g : MemoryGraph)
    (hids : (g.nodes.map (·.id)).Nodup)
    (hdup : ∀ n ∈ g.nodes, ((g.getLinks n.id).map (·.targetId)).Nodup)
    (htgt : ∀ n ∈ g.nodes, ∀ l ∈ g.getLinks n.id,
      l.targetId ∈ g.nodes.map (·.id))
    (hkeys : ∀ k ∈ alistKeys g.links, k ∈ g.nodes.map (·.id)) :
    ∃ db', persistGraph g emptyDB = .ok db' ∧
      (hydrateGraph db').nodes.map (·.id) = g.nodes.map (·.id) ∧
      (hydrateGraph db').nodes.map (·.embedding) =
        g.nodes.map (·.embedding) ∧
      (hydrateGraph db').nodes.map (·.salience) =
        g.nodes.map (·.salience) ∧
      (hydrateGraph db').nodes.map (·.lastAccessed) =
        g.nodes.map (·.lastAccessed) ∧
      (hydrateGraph db').nodes.map (·.accessCount) =
        g.nodes.map (·.accessCount) ∧
      ∀ fid, (hydrateGraph db').getLinks fid = g.getLinks fid := by
  refine ⟨_, persistGraph_empty g hids hdup htgt, ?_⟩
  rw [hydrateGraph_round g hids]
  refine ⟨?_, ?_, ?_, ?_, ?_, ?_⟩
  · rw [List.map_map]
    rfl
  · rw [List.map_map]
    rfl
  · rw [List.map_map]
    rfl
  · rw [List.map_map]
    rfl
  · rw [List.map_map]
    rfl
  · intro fid
    show (alistGet?
        ((g.nodes.filter (fun n => ¬ g.getLinks n.id = [])).map
          (fun n => (n.id, g.getLinks n.id))) fid).getD [] =
      g.getLinks fid
    by_cases hmem : fid ∈ g.nodes.map (·.id)
    · obtain ⟨n, hn, hnid⟩ := List.mem_map.mp hmem
      subst hnid
      by_cases hemp : g.getLinks n.id = []
      · rw [alistGet?_filterMap_filtered _ _ g.nodes hids n hn
          (by simp [hemp])]
        rw [hemp]
        rfl
      · rw [alistGet?_filterMap_present _ _ g.nodes hids n hn
          (decide_eq_true hemp)]
        rfl
    · rw [alistGet?_filterMap_absent _ _ g.nodes fid hmem]
      have hnone : alistGet? g.links fid = none :=
        alistGet?_none_of_not_mem (fun hc => hmem (hkeys fid hc))
      show (Option.none (α := List GraphLink)).getD [] =
        (alistGet? g.links fid).getD []
      rw [hnone]

/-- Nodes of the concrete graphs used for C3. -/
def witnessNodeC3a : GraphNode :=
  ⟨"a", "episode", [1], 1, some 5, 7, 2,
    ⟨"sa", ["t1"], 1, [⟨"q", "c", 3⟩], [], ["x"], ["y"], ⟨0, none⟩⟩⟩

def witnessNodeC3b : GraphNode :=
  ⟨"b", "episode", [0, 2], 2, none, 9, 3,
    ⟨"sb", [], 0, [], ["p"], [], [], ⟨1, some "long"⟩⟩⟩

/-- Two-node, one-link graph for the C3 witness. -/
def witnessGraphC3 : MemoryGraph :=
  ⟨[witnessNodeC3a, witnessNodeC3b], [("a", [⟨"b", 1, "thematic"⟩])]⟩

/-- Witness for C3 on a concrete two-node graph with one link. -/
theorem hydrate_persist_roundtrip_witness :
    ((witnessGraphC3.nodes.map (·.id)).Nodup ∧
      (∀ n ∈ witnessGraphC3.nodes,
        ((witnessGraphC3.getLinks n.id).map (·.targetId)).Nodup) ∧
      (∀ n ∈ witnessGraphC3.nodes, ∀ l ∈ witnessGraphC3.getLinks n.id,
        l.targetId ∈ witnessGraphC3.nodes.map (·.id)) ∧
      (∀ k ∈ alistKeys witnessGraphC3.links,
        k ∈ witnessGraphC3.nodes.map (·.id))) ∧
    (∃ db', persistGraph witnessGraphC3 emptyDB = .ok db' ∧
      (hydrateGraph db').nodes.map (·.id) =
        witnessGraphC3.nodes.map (·.id) ∧
      (hydrateGraph db').nodes.map (·.embedding) =
        witnessGraphC3.nodes.map (·.embedding) ∧
      (hydrateGraph db').nodes.map (·.salience) =
        witnessGraphC3.nodes.map (·.salience) ∧
      (hydrateGraph db').nodes.map (·.lastAccessed) =
        witnessGraphC3.nodes.map (·.lastAccessed) ∧
      (hydrateGraph db').nodes.map (·.accessCount) =
        witnessGraphC3.nodes.map (·.accessCount) ∧
      ∀ fid, (hydrateGraph db').getLinks fid =
        witnessGraphC3.getLinks fid) :=
  ⟨⟨by decide, by decide, by decide, by decide⟩,
    hydrate_persist_roundtrip witnessGraphC3
      (by decide) (by decide) (by decide) (by decide)⟩

/-- The same graph with the a→b link duplicated, as `addLink` freely
produces. -/
def ceGraphC3 : MemoryGraph :=
  ⟨[witnessNodeC3a, witnessNodeC3b],
    [("a", [⟨"b", 1, "thematic"⟩, ⟨"b", 2, "causal"⟩])]⟩

/-- **C3 counterexample.** The round trip does not hold for *every*
graph: a graph holding two parallel links over the same (source, target)
pair — which `addLink` happily creates — makes `persistGraph` violate the
`episode_links` primary key, so persistence aborts with an error instead
of producing a store to hydrate. -/
theorem persistGraph_duplicate_pair_counterexample :
    persistGraph ceGraphC3 emptyDB = .error .uniqueViolation := by
  rfl

/-! ## Consolidation pass (ConsolidationEngine.consolidate) and the
lifecycle wiring of `consolidateFn` -/

/-- Self-model field updates returned by the abstraction call. -/
structure SelfModelUpdates where
  currentFocus : Option String
  newTendency : Option String
  newValue : Option String
deriving DecidableEq, Repr

/-- Parsed result of the abstraction model call. -/
structure ConsolidationResult where
  episodes : List CandidateEpisode
  selfModelUpdates : SelfModelUpdates
deriving DecidableEq, Repr

/-- The lifecycle's `consolidateFn` wiring: the model call's outcome is
wrapped in try/catch, and a failure is replaced by an empty result
instead of propagating to the engine. -/
def wiredConsolidateFn (call : Except Unit ConsolidationResult) :
    ConsolidationResult :=
  match call with
  | .ok r => r
  | .error _ => ⟨[], ⟨none, none, none⟩⟩

/-- JS truthiness of a nullable string: null and the empty string are
falsy. -/
def strTruthy : Option String → Bool
  | none => false
  | some s => ¬ s = ""

/-- Step 5 of `consolidate`: reload the self-model from the store, apply
the truthy updates (tendency and value only when not already present),
save it back, and return the new engine reference alongside. -/
def applySelfModelUpdates (db : Database) (sm : Option SelfModel)
    (u : SelfModelUpdates) : Database × Option SelfModel :=
  match db.loadSelfModel with
  | none => (db, sm)
  | some fresh =>
      let f1 := if strTruthy u.currentFocus then
          { fresh with currentFocus := u.currentFocus }
        else fresh
      let f2 := match u.newTendency with
        | some t =>
            if ¬ t = "" ∧ t ∉ f1.tendencies then
              { f1 with tendencies := f1.tendencies ++ [t] }
            else f1
        | none => f1
      let f3 := match u.newValue with
        | some v =>
            if ¬ v = "" ∧ v ∉ f2.values then
              { f2 with values := f2.values ++ [v] }
            else f2
        | none => f2
      (db.saveSelfModel f3, some f3)

/-- Steps 3–4 of `consolidate`: run `consolidateCandidate` on each
candidate episode with its summary embedding and a fresh id. -/
def consolidateEpisodes (sqrtQ : ℚ → ℚ) (embedFn : String → List ℚ)
    (freshId : Nat → String) (now : Int) (g : MemoryGraph)
    (eps : List CandidateEpisode) : MemoryGraph :=
  (eps.foldl
    (fun (pr : MemoryGraph × Nat) ep =>
      (consolidateCandidate sqrtQ now (freshId pr.2) pr.1
        (embedFn ep.summary) ep, pr.2 + 1))
    (g, 0)).1

/-- Step 6 of `consolidate`: mark every fetched raw experience as
processed. -/
def markAllProcessed (db : Database) (raw : List RawExperience) :
    Database :=
  raw.foldl (fun db r => db.markRawExperienceProcessed r.id) db

/-- `ConsolidationEngine.consolidate`: fetch pending raw experiences;
when some exist, call the abstraction model, create or merge the
returned episodes, apply the self-model updates and mark the raw
experiences processed; then always decay the graph (step 7) and persist
it (step 8).  The platform pieces (model call, embedder, id generator,
sqrt/pow, clock) are parameters; the SQLite constraint failure of
`persistGraph` propagates. -/
def consolidate (consolidateFn : List String → ConsolidationResult)
    (embedFn : String → List ℚ) (freshId : Nat → String)
    (sqrtQ halfPow : ℚ → ℚ) (opts : DecayOptions) (now : Int)
    (db : Database) (g : MemoryGraph) (sm : Option SelfModel) :
    Except DBError (MemoryGraph × Database × Option SelfModel) :=
  let raw := db.getRawExperiences (some false)
  let step6 :=
    if 0 < raw.length then
      let result := consolidateFn (raw.map (·.content))
      let g3 := consolidateEpisodes sqrtQ embedFn freshId now g
        result.episodes
      let st5 := applySelfModelUpdates db sm result.selfModelUpdates
      (markAllProcessed st5.1 raw, g3, st5.2)
    else (db, g, sm)
  let g7 := step6.2.1.applyDecay halfPow opts now
  match persistGraph g7 step6.1 with
  | .ok db8 => .ok (g7, db8, step6.2.2)
  | .error e => .error e

/-! ### Lemmas for the failure path -/

theorem markAllProcessed_selfModel :
    ∀ (raw : List RawExperience) (db : Database),
      (markAllProcessed db raw).selfModel = db.selfModel := by
  intro raw
  induction raw with
  | nil => intro db; rfl
  | cons r rest ih =>
      intro db
      unfold markAllProcessed at ih ⊢
      rw [List.foldl_cons]
      exact ih _

theorem markOne_establishes (db : Database) (i : String) :
    ∀ r' ∈ (db.markRawExperienceProcessed i).rawExperiences,
      r'.id = i → r'.processed = true := by
  intro r' hr' hid
  unfold Database.markRawExperienceProcessed at hr'
  obtain ⟨r, _, hrr⟩ := List.mem_map.mp hr'
  by_cases h : r.id = i
  · rw [if_pos h] at hrr
    rw [← hrr]
  · rw [if_neg h] at hrr
    rw [← hrr] at hid
    exact absurd hid h

theorem markOne_preserves (db : Database) (j i : String)
    (hinv : ∀ r' ∈ db.rawExperiences, r'.id = i → r'.processed = true) :
    ∀ r' ∈ (db.markRawExperienceProcessed j).rawExperiences,
      r'.id = i → r'.processed = true := by
  intro r' hr' hid
  unfold Database.markRawExperienceProcessed at hr'
  obtain ⟨r, hr, hrr⟩ := List.mem_map.mp hr'
  by_cases h : r.id = j
  · rw [if_pos h] at hrr
    rw [← hrr]
  · rw [if_neg h] at hrr
    rw [← hrr]
    exact hinv r hr (by rw [hrr]; exact hid)

theorem markAll_preserves (i : String) :
    ∀ (raw : List RawExperience) (db : Database),
      (∀ r' ∈ db.rawExperiences, r'.id = i → r'.processed = true) →
      ∀ r' ∈ (markAllProcessed db raw).rawExperiences,
        r'.id = i → r'.processed = true := by
  intro raw
  induction raw with
  | nil => intro db hinv; exact hinv
  | cons r rest ih =>
      intro db hinv
      unfold markAllProcessed at ih ⊢
      rw [List.foldl_cons]
      exact ih _ (markOne_preserves db r.id i hinv)

theorem markAll_processed (i : String) :
    ∀ (raw : List RawExperience) (db : Database), i ∈ raw.map (·.id) →
      ∀ r' ∈ (markAllProcessed db raw).rawExperiences,
        r'.id = i → r'.processed = true := by
  intro raw
  induction raw with
  | nil =>
      intro db hmem
      cases hmem
  | cons r rest ih =>
      intro db hmem
      unfold markAllProcessed at ih ⊢
      rw [List.foldl_cons]
      rcases List.mem_cons.mp hmem with h | h
      · exact markAll_preserves i rest _
          (h ▸ markOne_establishes db r.id)
      · exact ih _ h

/-- With all-null updates the self-model pass is a no-op on the store:
the freshly loaded model is saved back unchanged. -/
theorem applySelfModelUpdates_null (db : Database) (sm : Option SelfModel) :
    applySelfModelUpdates db sm ⟨none, none, none⟩ =
      (db, match db.selfModel with | none => sm | some m => some m) := by
  unfold applySelfModelUpdates Database.loadSelfModel
  cases hdb : db.selfModel with
  | none => rfl
  | some fresh =>
      show (db.saveSelfModel fresh, some fresh) = (db, some fresh)
      unfold Database.saveSelfModel
      rw [Prod.mk.injEq]
      refine ⟨?_, rfl⟩
      show Database.mk db.rawExperiences db.episodes db.episodeLinks
        (some fresh) = db
      rw [← hdb]

/-- **C5 (amended).** When the abstraction model call fails, the
lifecycle's `consolidateFn` swallows the error and returns an empty
result, so the pass does NOT abort after step 2: it runs to the end with
no episode created or merged (the final graph is exactly the decayed
input graph), the stored self-model value unchanged, steps 7 and 8
running (decay is applied and the decayed graph is handed to
`persistGraph`) — but, contrary to the claim, every pending raw
experience IS marked processed in step 6. -/
theorem consolidation_failure_semantics
    (embedFn : String → List ℚ) (freshId : Nat → String)
    (sqrtQ halfPow : ℚ → ℚ) (opts : DecayOptions) (now : Int)
    (db : Database) (g : MemoryGraph) (sm : Option SelfModel)
    (hraw : 0 < (db.getRawExperiences (some false)).length) :
    (consolidate (fun _ => wiredConsolidateFn (.error ()))
        embedFn freshId sqrtQ halfPow opts now db g sm =
      Except.map
        (fun db8 => (g.applyDecay halfPow opts now, db8,
          match db.selfModel with | none => sm | some m => some m))
        (persistGraph (g.applyDecay halfPow opts now)
          (markAllProcessed db (db.getRawExperiences (some false))))) ∧
    (markAllProcessed db
        (db.getRawExperiences (some false))).selfModel = db.selfModel ∧
    (∀ r ∈ db.getRawExperiences (some false),
      ∀ r' ∈ (markAllProcessed db
          (db.getRawExperiences (some false))).rawExperiences,
        r'.id = r.id → r'.processed = true) := by
  refine ⟨?_, markAllProcessed_selfModel _ db, ?_⟩
  · simp only [consolidate, if_pos hraw, wiredConsolidateFn,
      consolidateEpisodes, List.foldl_nil, applySelfModelUpdates_null]
    cases hper : persistGraph (g.applyDecay halfPow opts now)
        (markAllProcessed db (db.getRawExperiences (some false))) with
    | ok db8 => rfl
    | error e => rfl
  · intro r hr r' hr' hid
    exact markAll_processed r.id (db.getRawExperiences (some false)) db
      (List.mem_map.mpr ⟨r, hr, rfl⟩) r' hr' hid

/-- Store used by the C5 witness: one pending and one already-processed
raw experience. -/
def witnessDbC5 : Database :=
  ⟨[⟨"r1", "conversation", 0, "hello", [1], 1, false, ""⟩,
    ⟨"r2", "conversation", 1, "there", [1], 1, true, ""⟩],
    [], [], none⟩

/-- Witness for C5 on a concrete store with a pending raw experience. -/
theorem consolidation_failure_semantics_witness :
    (0 < (witnessDbC5.getRawExperiences (some false)).length) ∧
    ((consolidate (fun _ => wiredConsolidateFn (.error ()))
        (fun _ => [1]) (fun _ => "n") (fun q => q) (fun q => q)
        ⟨30, 0, none⟩ 5 witnessDbC5 ⟨[], []⟩ none =
      Except.map
        (fun db8 => (MemoryGraph.applyDecay ⟨[], []⟩ (fun q => q)
            ⟨30, 0, none⟩ 5, db8,
          match witnessDbC5.selfModel with
          | none => none | some m => some m))
        (persistGraph (MemoryGraph.applyDecay ⟨[], []⟩ (fun q => q)
            ⟨30, 0, none⟩ 5)
          (markAllProcessed witnessDbC5
            (witnessDbC5.getRawExperiences (some false))))) ∧
    (markAllProcessed witnessDbC5
        (witnessDbC5.getRawExperiences (some false))).selfModel =
      witnessDbC5.selfModel ∧
    (∀ r ∈ witnessDbC5.getRawExperiences (some false),
      ∀ r' ∈ (markAllProcessed witnessDbC5
          (witnessDbC5.getRawExperiences (some false))).rawExperiences,
        r'.id = r.id → r'.processed = true)) :=
  ⟨by decide,
    consolidation_failure_semantics (fun _ => [1]) (fun _ => "n")
      (fun q => q) (fun q => q) ⟨30, 0, none⟩ 5 witnessDbC5 ⟨[], []⟩ none
      (by decide)⟩

/-- Store with a single unprocessed raw experience. -/
def ceDbC5 : Database :=
  ⟨[⟨"r1", "conversation", 0, "hello", [], 1, false, ""⟩], [], [], none⟩

/-- **C5 counterexample.** A run in which the abstraction model call
fails does not leave the raw experiences unprocessed: with one pending
raw experience and a failing model call the pass completes and the
persisted store shows that experience marked processed, refuting "no raw
experience is marked processed". -/
theorem consolidation_failure_marks_processed_counterexample :
    (match consolidate (fun _ => wiredConsolidateFn (.error ()))
        (fun _ => []) (fun _ => "n") (fun q => q) (fun q => q)
        ⟨30, 0, none⟩ 0 ceDbC5 ⟨[], []⟩ none with
      | .ok st => st.2.1.rawExperiences.map (·.processed)
      | .error _ => []) = [true] := by
  rfl

end Reveries
